import Mathlib

/-!
Verification of the NEMWeb data pipeline (NEMWeb.py).

This file shallowly embeds the data model and the algorithms of NEMWeb.py
and proves properties of the embedded definitions.  Power values and row
totals are modelled as rationals (the source uses machine floats; every
claimed property concerns exact linear arithmetic on small values), and
the Python `datetime` dates are modelled as proleptic-Gregorian calendar
triples with the standard civil-from-days/days-from-civil conversions.
-/

/-! ### Dates: a model of Python `datetime` dates

`Civil` is a (year, month, day) triple.  `daysFromCivil` and
`civilFromDays` are the standard proleptic Gregorian conversions between a
civil triple and a day ordinal (0 = 1970-01-01); Python's
`datetime + timedelta(days=k)` is `addDays`, and `datetime.weekday()`
(Monday = 0, so 1970-01-01, a Thursday, has weekday 3) is `weekday`.
Integer `/` and `%` here are Lean's Euclidean operations, which agree with
floor division for the positive literal divisors used throughout. -/

structure Civil where
  y : ℤ
  m : ℤ
  d : ℤ
  deriving DecidableEq, Repr

/-- Day ordinal of a civil date (0 = 1970-01-01). -/
def daysFromCivil (c : Civil) : ℤ :=
  let y : ℤ := if c.m ≤ 2 then c.y - 1 else c.y
  let era : ℤ := y / 400
  let yoe : ℤ := y - era * 400
  let mp : ℤ := if 2 < c.m then c.m - 3 else c.m + 9
  let doy : ℤ := (153 * mp + 2) / 5 + c.d - 1
  let doe : ℤ := yoe * 365 + yoe / 4 - yoe / 100 + doy
  era * 146097 + doe - 719468

/-- Civil date of a day ordinal (0 = 1970-01-01). -/
def civilFromDays (z : ℤ) : Civil :=
  let zs : ℤ := z + 719468
  let era : ℤ := zs / 146097
  let doe : ℤ := zs - era * 146097
  let yoe : ℤ := (doe - doe / 1460 + doe / 36524 - doe / 146096) / 365
  let y : ℤ := yoe + era * 400
  let doy : ℤ := doe - (365 * yoe + yoe / 4 - yoe / 100)
  let mp : ℤ := (5 * doy + 2) / 153
  let d : ℤ := doy - (153 * mp + 2) / 5 + 1
  let m : ℤ := if mp < 10 then mp + 3 else mp - 9
  ⟨if m ≤ 2 then y + 1 else y, m, d⟩

/-- Key inequality for the year-of-era extraction in `civilFromDays`: the
start of the extracted year of era is at most `doe`, and `doe` lies at
most 365 days past it. -/
theorem yoe_key (doe : ℤ) (h0 : 0 ≤ doe) (h1 : doe ≤ 146096) :
    365 * ((doe - doe / 1460 + doe / 36524 - doe / 146096) / 365)
      + ((doe - doe / 1460 + doe / 36524 - doe / 146096) / 365) / 4
      - ((doe - doe / 1460 + doe / 36524 - doe / 146096) / 365) / 100 ≤ doe
    ∧ doe - (365 * ((doe - doe / 1460 + doe / 36524 - doe / 146096) / 365)
      + ((doe - doe / 1460 + doe / 36524 - doe / 146096) / 365) / 4
      - ((doe - doe / 1460 + doe / 36524 - doe / 146096) / 365) / 100) ≤ 365 := by
  by_cases h25 : doe / 1460 = 25
  · have hj0 : 100 ≤ doe / 365 := by omega
    have hj1 : doe / 365 ≤ 104 := by omega
    set j := doe / 365 with hj
    clear_value j
    interval_cases j <;> omega
  by_cases h50 : doe / 1460 = 50
  · have hj0 : 200 ≤ doe / 365 := by omega
    have hj1 : doe / 365 ≤ 204 := by omega
    set j := doe / 365 with hj
    clear_value j
    interval_cases j <;> omega
  by_cases h75 : doe / 1460 = 75
  · have hj0 : 300 ≤ doe / 365 := by omega
    have hj1 : doe / 365 ≤ 304 := by omega
    set j := doe / 365 with hj
    clear_value j
    interval_cases j <;> omega
  have hk0 : 0 ≤ doe / 1460 := by omega
  have hk1 : doe / 1460 ≤ 100 := by omega
  set k := doe / 1460 with hk
  clear_value k
  interval_cases k <;> omega

/-- `daysFromCivil` inverts the month/day/year triple produced for a day
of era `doy`-decomposition, stated over abstract `era`, `yoe`, `doy`,
`mp`. -/
theorem daysFromCivil_mk (era yoe doy mp : ℤ) (hy0 : 0 ≤ yoe) (hy1 : yoe ≤ 399)
    (hmp0 : 0 ≤ mp) (hmp1 : mp ≤ 11) :
    daysFromCivil ⟨if (if mp < 10 then mp + 3 else mp - 9) ≤ 2
                     then yoe + era * 400 + 1 else yoe + era * 400,
                   if mp < 10 then mp + 3 else mp - 9,
                   doy - (153 * mp + 2) / 5 + 1⟩
      = era * 146097 + (yoe * 365 + yoe / 4 - yoe / 100 + doy) - 719468 := by
  by_cases hmp : mp < 10
  · simp only [if_pos hmp]
    rw [if_neg (by omega : ¬(mp + 3 ≤ 2))]
    simp only [daysFromCivil]
    rw [if_neg (by omega : ¬(mp + 3 ≤ 2)), if_pos (by omega : (2:ℤ) < mp + 3)]
    rw [show (yoe + era * 400) / 400 = era from by omega]
    rw [show yoe + era * 400 - era * 400 = yoe from by ring]
    rw [show mp + 3 - 3 = mp from by ring]
    omega
  · simp only [if_neg hmp]
    rw [if_pos (by omega : mp - 9 ≤ 2)]
    simp only [daysFromCivil]
    rw [if_pos (by omega : mp - 9 ≤ 2), if_neg (by omega : ¬(2:ℤ) < mp - 9)]
    rw [show yoe + era * 400 + 1 - 1 = yoe + era * 400 from by ring]
    rw [show (yoe + era * 400) / 400 = era from by omega]
    rw [show yoe + era * 400 - era * 400 = yoe from by ring]
    rw [show mp - 9 + 9 = mp from by ring]
    omega

/-- Reconstruction of an era/day-of-era decomposed ordinal. -/
theorem daysFromCivil_recon (era doe : ℤ) (h0 : 0 ≤ doe) (h1 : doe ≤ 146096) :
    daysFromCivil (civilFromDays (era * 146097 + doe - 719468))
      = era * 146097 + doe - 719468 := by
  have key := yoe_key doe h0 h1
  have h2 : (era * 146097 + doe - 719468 + 719468) / 146097 = era := by omega
  have h3 : era * 146097 + doe - 719468 + 719468 - era * 146097 = doe := by ring
  have hciv : civilFromDays (era * 146097 + doe - 719468) =
      ⟨if (if (5 * (doe - (365 * ((doe - doe / 1460 + doe / 36524 - doe / 146096) / 365)
            + ((doe - doe / 1460 + doe / 36524 - doe / 146096) / 365) / 4
            - ((doe - doe / 1460 + doe / 36524 - doe / 146096) / 365) / 100)) + 2) / 153 < 10
          then (5 * (doe - (365 * ((doe - doe / 1460 + doe / 36524 - doe / 146096) / 365)
            + ((doe - doe / 1460 + doe / 36524 - doe / 146096) / 365) / 4
            - ((doe - doe / 1460 + doe / 36524 - doe / 146096) / 365) / 100)) + 2) / 153 + 3
          else (5 * (doe - (365 * ((doe - doe / 1460 + doe / 36524 - doe / 146096) / 365)
            + ((doe - doe / 1460 + doe / 36524 - doe / 146096) / 365) / 4
            - ((doe - doe / 1460 + doe / 36524 - doe / 146096) / 365) / 100)) + 2) / 153 - 9) ≤ 2
        then (doe - doe / 1460 + doe / 36524 - doe / 146096) / 365 + era * 400 + 1
        else (doe - doe / 1460 + doe / 36524 - doe / 146096) / 365 + era * 400,
       if (5 * (doe - (365 * ((doe - doe / 1460 + doe / 36524 - doe / 146096) / 365)
            + ((doe - doe / 1460 + doe / 36524 - doe / 146096) / 365) / 4
            - ((doe - doe / 1460 + doe / 36524 - doe / 146096) / 365) / 100)) + 2) / 153 < 10
          then (5 * (doe - (365 * ((doe - doe / 1460 + doe / 36524 - doe / 146096) / 365)
            + ((doe - doe / 1460 + doe / 36524 - doe / 146096) / 365) / 4
            - ((doe - doe / 1460 + doe / 36524 - doe / 146096) / 365) / 100)) + 2) / 153 + 3
          else (5 * (doe - (365 * ((doe - doe / 1460 + doe / 36524 - doe / 146096) / 365)
            + ((doe - doe / 1460 + doe / 36524 - doe / 146096) / 365) / 4
            - ((doe - doe / 1460 + doe / 36524 - doe / 146096) / 365) / 100)) + 2) / 153 - 9,
       (doe - (365 * ((doe - doe / 1460 + doe / 36524 - doe / 146096) / 365)
            + ((doe - doe / 1460 + doe / 36524 - doe / 146096) / 365) / 4
            - ((doe - doe / 1460 + doe / 36524 - doe / 146096) / 365) / 100))
         - (153 * ((5 * (doe - (365 * ((doe - doe / 1460 + doe / 36524 - doe / 146096) / 365)
            + ((doe - doe / 1460 + doe / 36524 - doe / 146096) / 365) / 4
            - ((doe - doe / 1460 + doe / 36524 - doe / 146096) / 365) / 100)) + 2) / 153) + 2) / 5 + 1⟩ := by
    simp only [civilFromDays]
    rw [h2, h3]
  rw [hciv]
  set yoe := (doe - doe / 1460 + doe / 36524 - doe / 146096) / 365 with hyoe_def
  set doy := doe - (365 * yoe + yoe / 4 - yoe / 100) with hdoy_def
  set mp := (5 * doy + 2) / 153 with hmp_def
  have f1 : 0 ≤ yoe ∧ yoe ≤ 399 := by omega
  have f2 : 0 ≤ doy ∧ doy ≤ 365 := by omega
  have f3 : 0 ≤ mp ∧ mp ≤ 11 := by omega
  rw [daysFromCivil_mk era yoe doy mp f1.1 f1.2 f3.1 f3.2]
  omega

/-- The two calendar conversions are inverse (ordinal side). -/
theorem daysFromCivil_civilFromDays (z : ℤ) : daysFromCivil (civilFromDays z) = z := by
  have h := daysFromCivil_recon ((z + 719468) / 146097) ((z + 719468) % 146097)
    (by omega) (by omega)
  have hz : (z + 719468) / 146097 * 146097 + (z + 719468) % 146097 - 719468 = z := by omega
  rw [hz] at h
  exact h

/-- Python `date + timedelta(days = k)`. -/
def addDays (c : Civil) (k : ℤ) : Civil := civilFromDays (daysFromCivil c + k)

/-- Python `date.weekday()`: Monday = 0 … Sunday = 6; ordinal 0
(1970-01-01) was a Thursday, weekday 3. -/
def weekday (c : Civil) : ℤ := (daysFromCivil c + 3) % 7

/-- The four window bounds computed by
`NEMWeb.calculate_most_recent_full_twelve_months`. -/
structure Window where
  startDaily : Civil
  endDaily : Civil
  startWeekly : Civil
  endWeekly : Civil

/-- `NEMWeb.calculate_most_recent_full_twelve_months` (NEMWeb.py
lines 1080-1124), given the dates parsed from the last daily and last
weekly filenames.  `earliest_end_date` is the smaller of (last daily + 1
day) and (last weekly + 7 days); it is truncated to the first of its
month (`replace(day=1)`), the daily start is the first of the same month
one year earlier, and the weekly bounds pad outward to the surrounding
Thursdays (anchor weekday 3). -/
def calculate_most_recent_full_twelve_months (lastDaily lastWeekly : Civil) : Window :=
  let earliestEnd0 := addDays lastDaily 1
  let weekly := addDays lastWeekly 7
  let earliestEnd :=
    if daysFromCivil weekly < daysFromCivil earliestEnd0 then weekly else earliestEnd0
  let endDaily : Civil := ⟨earliestEnd.y, earliestEnd.m, 1⟩
  let startDaily : Civil := ⟨endDaily.y - 1, endDaily.m, 1⟩
  let i := (weekday startDaily - 3) % 7
  let startWeekly := addDays startDaily (-i)
  let j := (3 - weekday endDaily) % 7
  let endWeekly := addDays endDaily j
  ⟨startDaily, endDaily, startWeekly, endWeekly⟩

/-- C4: With end = min(last daily period + 1 day, last weekly period +
7 days) truncated to the first day of its month and start = the first
day of the same month one year earlier, the daily window bounds both
fall on the first day of a month, with `end.year - start.year = 1` and
equal months; the weekly window obtained by padding outward to the
anchor weekday (Thursday, weekday 3) fully contains the daily window and
both weekly bounds fall on a Thursday. -/
theorem window_alignment (lastDaily lastWeekly : Civil) :
    (calculate_most_recent_full_twelve_months lastDaily lastWeekly).startDaily.d = 1
    ∧ (calculate_most_recent_full_twelve_months lastDaily lastWeekly).endDaily.d = 1
    ∧ (calculate_most_recent_full_twelve_months lastDaily lastWeekly).endDaily.y
        - (calculate_most_recent_full_twelve_months lastDaily lastWeekly).startDaily.y = 1
    ∧ (calculate_most_recent_full_twelve_months lastDaily lastWeekly).endDaily.m
        = (calculate_most_recent_full_twelve_months lastDaily lastWeekly).startDaily.m
    ∧ weekday (calculate_most_recent_full_twelve_months lastDaily lastWeekly).startWeekly = 3
    ∧ weekday (calculate_most_recent_full_twelve_months lastDaily lastWeekly).endWeekly = 3
    ∧ daysFromCivil (calculate_most_recent_full_twelve_months lastDaily lastWeekly).startWeekly
        ≤ daysFromCivil (calculate_most_recent_full_twelve_months lastDaily lastWeekly).startDaily
    ∧ daysFromCivil (calculate_most_recent_full_twelve_months lastDaily lastWeekly).endDaily
        ≤ daysFromCivil (calculate_most_recent_full_twelve_months lastDaily lastWeekly).endWeekly := by
  refine ⟨?_, ?_, ?_, ?_, ?_, ?_, ?_, ?_⟩ <;>
    simp only [calculate_most_recent_full_twelve_months, weekday, addDays,
      daysFromCivil_civilFromDays] <;>
    first
      | rfl
      | omega

/-! ### Interval index derivation (`NEMWebCommon.read_interval_zip`)

The payload timestamp is parsed from the inner CSV filename at minute
granularity; `seconds` is the elapsed-time difference to the period's
start timestamp and the interval index is
`int(seconds / (60 * MINUTES_PER_INTERVAL) + 0.5)` (NEMWeb.py
lines 663-683).  Python's `int()` truncates toward zero. -/

structure TimeStamp where
  date : Civil
  hour : ℤ
  minute : ℤ
  deriving DecidableEq, Repr

/-- Python `(t1 - t2).total_seconds()` numerator: seconds since the
epoch of a whole-minute timestamp. -/
def totalSeconds (t : TimeStamp) : ℤ :=
  86400 * daysFromCivil t.date + 3600 * t.hour + 60 * t.minute

/-- Python `int()` applied to a rational: truncation toward zero. -/
def pyInt (q : ℚ) : ℤ := if q < 0 then ⌈q⌉ else ⌊q⌋

/-- The interval index computed by `read_interval_zip`:
`int(seconds / (60 * MINUTES_PER_INTERVAL) + 0.5)`. -/
def read_interval_index (csv_stamp start_stamp : TimeStamp) (minutesPerInterval : ℕ) : ℤ :=
  pyInt (((totalSeconds csv_stamp - totalSeconds start_stamp : ℤ) : ℚ)
    / (60 * minutesPerInterval) + 1 / 2)

/-- C8: for a payload timestamp at or after the period start, the
interval index computed by the code,
`int(seconds / (60 * MINUTES_PER_INTERVAL) + 0.5)`, equals
`round((payload_timestamp - period_start_timestamp) / interval_length)`
(`round` = round half up, Mathlib's `round`), for any positive
minutes-per-interval — in particular for the daily feed's 5 and the
weekly feed's 30. -/
theorem interval_index_is_round (csv_stamp start_stamp : TimeStamp) (mpi : ℕ)
    (hmpi : 0 < mpi) (h : totalSeconds start_stamp ≤ totalSeconds csv_stamp) :
    read_interval_index csv_stamp start_stamp mpi
      = round (((totalSeconds csv_stamp - totalSeconds start_stamp : ℤ) : ℚ)
          / (60 * mpi)) := by
  unfold read_interval_index pyInt
  have hnum : (0:ℚ) ≤ ((totalSeconds csv_stamp - totalSeconds start_stamp : ℤ) : ℚ) := by
    exact_mod_cast sub_nonneg.mpr h
  have hden : (0:ℚ) < 60 * mpi := by positivity
  have hq : (0:ℚ) ≤ ((totalSeconds csv_stamp - totalSeconds start_stamp : ℤ) : ℚ)
      / (60 * mpi) := div_nonneg hnum hden.le
  rw [if_neg (by linarith), round_eq]

/-- Witness for C8: payload stamped 00:10 against a period starting
00:05, at 5 minutes per interval (the daily feed), lands on interval 1. -/
theorem interval_index_is_round_witness :
    read_interval_index ⟨⟨2022, 7, 25⟩, 0, 10⟩ ⟨⟨2022, 7, 25⟩, 0, 5⟩ 5
      = round (((totalSeconds ⟨⟨2022, 7, 25⟩, 0, 10⟩
          - totalSeconds ⟨⟨2022, 7, 25⟩, 0, 5⟩ : ℤ) : ℚ) / (60 * 5)) :=
  interval_index_is_round ⟨⟨2022, 7, 25⟩, 0, 10⟩ ⟨⟨2022, 7, 25⟩, 0, 5⟩ 5
    (by norm_num) (by decide)

/-! ### Remote-listing trim (`NEMWebCommon.build_file_lists`)

NEMWeb.py lines 336-346: after sorting the remote listing,
`valid_len = len(rzlist[0])`, then `while len(rzlist[-1]) != valid_len:
rzlist.pop()` discards trailing variant entries whose filename length
differs from the first entry's.  `trimRev` is that loop acting on the
reversed list. -/

/-- Pop-from-the-end loop on the reversed listing: drop leading entries
of the reversed list while their length differs from `validLen`. -/
def trimRev (validLen : ℕ) : List String → List String
  | [] => []
  | s :: tl => if s.length ≠ validLen then trimRev validLen tl else s :: tl

/-- The whole trimming step, `valid_len` taken from the first entry. -/
def trimTrailing (rzlist : List String) : List String :=
  (trimRev (rzlist.headD "").length rzlist.reverse).reverse

/-- `trimRev` returns a suffix (a `drop`) of its input. -/
theorem trimRev_eq_drop (v : ℕ) (l : List String) : ∃ n, trimRev v l = l.drop n := by
  induction l with
  | nil => exact ⟨0, rfl⟩
  | cons s tl ih =>
    by_cases hs : s.length ≠ v
    · obtain ⟨n, hn⟩ := ih
      exact ⟨n + 1, by simpa [trimRev, hs] using hn⟩
    · exact ⟨0, by simp [trimRev, hs]⟩

/-- If some entry has the valid length, `trimRev` does not empty the
list, and the head of its result has the valid length. -/
theorem trimRev_ne_nil (v : ℕ) (l : List String) (h : ∃ s ∈ l, s.length = v) :
    trimRev v l ≠ [] ∧ ((trimRev v l).headD "").length = v := by
  induction l with
  | nil => simp at h
  | cons s tl ih =>
    by_cases hs : s.length ≠ v
    · have htl : ∃ x ∈ tl, x.length = v := by
        obtain ⟨x, hx, hxv⟩ := h
        rcases List.mem_cons.mp hx with rfl | hx2
        · exact absurd hxv hs
        · exact ⟨x, hx2, hxv⟩
      simpa [trimRev, hs] using ih htl
    · refine ⟨by simp [trimRev, hs], ?_⟩
      simp only [trimRev, if_neg hs]
      simpa using not_not.mp hs

/-- C10: for every non-empty remote listing the trimming loop never
empties the list (the first entry trivially has the valid length, so
`rzlist[0]` and `rzlist[-1]` stay accessible throughout), on exit the
final entry's filename length equals the first entry's, the first entry
itself is retained, and the result is an initial segment (a `take`) of
the input: only trailing entries are discarded.  An empty listing
violates the precondition (`rzlist[0]` has no valid result). -/
theorem trim_trailing_safe (rzlist : List String) (h : rzlist ≠ []) :
    trimTrailing rzlist ≠ []
    ∧ (trimTrailing rzlist).getLast?.map String.length
        = some (rzlist.headD "").length
    ∧ ∃ n, trimTrailing rzlist = rzlist.take n := by
  obtain ⟨a, tl, rfl⟩ := List.exists_cons_of_ne_nil h
  have hmem : ∃ s ∈ (a :: tl).reverse, s.length = ((a :: tl).headD "").length :=
    ⟨a, by simp, rfl⟩
  obtain ⟨hne, hlen⟩ := trimRev_ne_nil ((a :: tl).headD "").length (a :: tl).reverse hmem
  obtain ⟨n, hn⟩ := trimRev_eq_drop ((a :: tl).headD "").length (a :: tl).reverse
  refine ⟨by simpa [trimTrailing] using hne, ?_, ?_⟩
  · rw [trimTrailing, List.getLast?_reverse]
    cases hcase : trimRev ((a :: tl).headD "").length (a :: tl).reverse with
    | nil => exact absurd hcase hne
    | cons b bs =>
      rw [hcase] at hlen
      simp only [List.head?_cons, Option.map_some']
      simpa using hlen
  · refine ⟨(a :: tl).length - n, ?_⟩
    rw [trimTrailing, hn, ← List.rdrop_eq_reverse_drop_reverse]
    rfl

/-- Witness for C10 on the listing `["aa", "bb", "c"]` (trailing variant
entry of length 1). -/
theorem trim_trailing_safe_witness :
    trimTrailing ["aa", "bb", "c"] ≠ []
    ∧ (trimTrailing ["aa", "bb", "c"]).getLast?.map String.length
        = some ((["aa", "bb", "c"] : List String).headD "").length
    ∧ ∃ n, trimTrailing ["aa", "bb", "c"] = (["aa", "bb", "c"] : List String).take n :=
  trim_trailing_safe ["aa", "bb", "c"] (by simp)

/-! ### List update helpers shared by the grid embeddings -/

/-- `getD` after `set` at the written index. -/
theorem getD_set_self (l : List ℚ) (i : ℕ) (a d : ℚ) (h : i < l.length) :
    (l.set i a).getD i d = a := by
  simp [List.getD, List.getElem?_set_eq_of_lt a h]

/-- `getD` after `set` at a different index. -/
theorem getD_set_ne (l : List ℚ) (i j : ℕ) (a d : ℚ) (h : i ≠ j) :
    (l.set i a).getD j d = l.getD j d := by
  simp [List.getD, List.getElem?_set_ne h]

/-! ### Category and in/out tallying (`NEMWeb.build_cat_and_in_out_dfs`)

NEMWeb.py lines 1148-1170: for one channel column with category columns
`cat_col` (negative) and `num_cat + cat_col` (positive), the loop walks
the rows; a zero value is skipped; a battery-load value is negated
(`srcval = -srcval`); a negative routed value is `+=`-accumulated into
the category's negative column at that row and into the channel's
running negative total (`in_out_MW[src_col, 0]`), a nonnegative one into
the positive column and positive total.  `negCol`/`posCol` below are the
rows of the two category columns touched by this channel and
`tin`/`tout` the channel's running totals. -/

/-- The per-channel tallying loop. -/
def tally_channel (batt : Bool) : List ℚ → ℕ → List ℚ → List ℚ → ℚ → ℚ →
    List ℚ × List ℚ × ℚ × ℚ
  | [], _, negCol, posCol, tin, tout => (negCol, posCol, tin, tout)
  | v :: vs, row, negCol, posCol, tin, tout =>
    if v = 0 then tally_channel batt vs (row + 1) negCol posCol tin tout
    else
      let w := if batt then -v else v
      if w < 0 then
        tally_channel batt vs (row + 1) (negCol.set row (negCol.getD row 0 + w)) posCol
          (tin + w) tout
      else
        tally_channel batt vs (row + 1) negCol (posCol.set row (posCol.getD row 0 + w))
          tin (tout + w)

/-- Routed negative contribution of one reported value (0 when skipped
or routed positively). -/
def negRouted (batt : Bool) (v : ℚ) : ℚ :=
  if v ≠ 0 ∧ (if batt then -v else v) < 0 then (if batt then -v else v) else 0

/-- Routed positive contribution of one reported value. -/
def posRouted (batt : Bool) (v : ℚ) : ℚ :=
  if v ≠ 0 ∧ ¬(if batt then -v else v) < 0 then (if batt then -v else v) else 0

/-- Full characterisation of `tally_channel`, generalised over the
starting row. -/
theorem tally_channel_spec (batt : Bool) (vals : List ℚ) :
    ∀ (row0 : ℕ) (negCol posCol : List ℚ) (tin tout : ℚ),
      (tally_channel batt vals row0 negCol posCol tin tout).1.length = negCol.length
      ∧ (tally_channel batt vals row0 negCol posCol tin tout).2.1.length = posCol.length
      ∧ (∀ r, r < row0 →
          (tally_channel batt vals row0 negCol posCol tin tout).1.getD r 0
            = negCol.getD r 0
          ∧ (tally_channel batt vals row0 negCol posCol tin tout).2.1.getD r 0
            = posCol.getD r 0)
      ∧ (∀ k, k < vals.length → row0 + k < negCol.length → row0 + k < posCol.length →
          (tally_channel batt vals row0 negCol posCol tin tout).1.getD (row0 + k) 0
            = negCol.getD (row0 + k) 0 + negRouted batt (vals.getD k 0)
          ∧ (tally_channel batt vals row0 negCol posCol tin tout).2.1.getD (row0 + k) 0
            = posCol.getD (row0 + k) 0 + posRouted batt (vals.getD k 0))
      ∧ (tally_channel batt vals row0 negCol posCol tin tout).2.2.1
          = tin + (vals.map (negRouted batt)).sum
      ∧ (tally_channel batt vals row0 negCol posCol tin tout).2.2.2
          = tout + (vals.map (posRouted batt)).sum := by
  induction vals with
  | nil =>
    intro row0 negCol posCol tin tout
    refine ⟨rfl, rfl, fun r _ => ⟨rfl, rfl⟩, fun k hk => absurd hk (by simp),
      by simp [tally_channel], by simp [tally_channel]⟩
  | cons v vs ih =>
    intro row0 negCol posCol tin tout
    by_cases hv : v = 0
    · have step : tally_channel batt (v :: vs) row0 negCol posCol tin tout
          = tally_channel batt vs (row0 + 1) negCol posCol tin tout := by
        simp [tally_channel, hv]
      obtain ⟨l1, l2, lo, hi, s1, s2⟩ := ih (row0 + 1) negCol posCol tin tout
      rw [step]
      refine ⟨l1, l2, fun r hr => lo r (by omega), ?_, ?_, ?_⟩
      · intro k hk hkn hkp
        cases k with
        | zero =>
          obtain ⟨e1, e2⟩ := lo row0 (by omega)
          simp only [Nat.add_zero, List.getD_cons_zero, hv]
          rw [e1, e2]
          simp [negRouted, posRouted]
        | succ k =>
          obtain ⟨e1, e2⟩ := hi k (by simpa using hk) (by omega) (by omega)
          simp only [List.getD_cons_succ]
          rw [show row0 + (k + 1) = row0 + 1 + k from by omega]
          exact ⟨e1, e2⟩
      · rw [s1]
        simp [hv, negRouted]
      · rw [s2]
        simp [hv, posRouted]
    · by_cases hneg : (if batt then -v else v) < 0
      · have step : tally_channel batt (v :: vs) row0 negCol posCol tin tout
            = tally_channel batt vs (row0 + 1)
                (negCol.set row0 (negCol.getD row0 0 + (if batt then -v else v))) posCol
                (tin + (if batt then -v else v)) tout := by
          simp only [tally_channel, if_neg hv, if_pos hneg]
        obtain ⟨l1, l2, lo, hi, s1, s2⟩ :=
          ih (row0 + 1) (negCol.set row0 (negCol.getD row0 0 + (if batt then -v else v)))
            posCol (tin + (if batt then -v else v)) tout
        rw [step]
        refine ⟨by simpa using l1, l2, ?_, ?_, ?_, ?_⟩
        · intro r hr
          obtain ⟨e1, e2⟩ := lo r (by omega)
          exact ⟨by rw [e1, getD_set_ne _ _ _ _ _ (by omega)], e2⟩
        · intro k hk hkn hkp
          cases k with
          | zero =>
            obtain ⟨e1, e2⟩ := lo row0 (by omega)
            simp only [Nat.add_zero, List.getD_cons_zero]
            constructor
            · rw [e1, getD_set_self _ _ _ _ (by simpa using hkn)]
              simp [negRouted, hv, hneg]
            · rw [e2]
              simp [posRouted, hv, hneg]
          | succ k =>
            obtain ⟨e1, e2⟩ := hi k (by simpa using hk)
              (by simpa using (show row0 + 1 + k < negCol.length from by omega))
              (show row0 + 1 + k < posCol.length from by omega)
            simp only [List.getD_cons_succ]
            rw [show row0 + (k + 1) = row0 + 1 + k from by omega]
            refine ⟨?_, e2⟩
            rw [e1, getD_set_ne _ _ _ _ _ (by omega)]
        · rw [s1]
          simp only [List.map_cons, List.sum_cons]
          rw [show negRouted batt v = (if batt then -v else v) from by
            simp [negRouted, hv, hneg]]
          ring
        · rw [s2]
          simp only [List.map_cons, List.sum_cons]
          rw [show posRouted batt v = 0 from by simp [posRouted, hv, hneg]]
          ring
      · have step : tally_channel batt (v :: vs) row0 negCol posCol tin tout
            = tally_channel batt vs (row0 + 1)
                negCol (posCol.set row0 (posCol.getD row0 0 + (if batt then -v else v)))
                tin (tout + (if batt then -v else v)) := by
          simp only [tally_channel, if_neg hv, if_neg hneg]
        obtain ⟨l1, l2, lo, hi, s1, s2⟩ :=
          ih (row0 + 1) negCol (posCol.set row0 (posCol.getD row0 0 + (if batt then -v else v)))
            tin (tout + (if batt then -v else v))
        rw [step]
        refine ⟨l1, by simpa using l2, ?_, ?_, ?_, ?_⟩
        · intro r hr
          obtain ⟨e1, e2⟩ := lo r (by omega)
          exact ⟨e1, by rw [e2, getD_set_ne _ _ _ _ _ (by omega)]⟩
        · intro k hk hkn hkp
          cases k with
          | zero =>
            obtain ⟨e1, e2⟩ := lo row0 (by omega)
            simp only [Nat.add_zero, List.getD_cons_zero]
            constructor
            · rw [e1]
              simp [negRouted, hv, hneg]
            · rw [e2, getD_set_self _ _ _ _ (by simpa using hkp)]
              simp [posRouted, hv, hneg]
          | succ k =>
            obtain ⟨e1, e2⟩ := hi k (by simpa using hk)
              (show row0 + 1 + k < negCol.length from by omega)
              (by simpa using (show row0 + 1 + k < posCol.length from by omega))
            simp only [List.getD_cons_succ]
            rw [show row0 + (k + 1) = row0 + 1 + k from by omega]
            refine ⟨e1, ?_⟩
            rw [e2, getD_set_ne _ _ _ _ _ (by omega)]
        · rw [s1]
          simp only [List.map_cons, List.sum_cons]
          rw [show negRouted batt v = 0 from by simp [negRouted, hv, hneg]]
          ring
        · rw [s2]
          simp only [List.map_cons, List.sum_cons]
          rw [show posRouted batt v = (if batt then -v else v) from by
            simp [posRouted, hv, hneg]]
          ring

/-- C5: for every row of a channel column with a non-zero value, the
value used is negated exactly when the channel's load flag is set; a
negative routed value is added (`+=`) to the category's negative column
at that row and to the channel's running negative total, a nonnegative
one to the positive column and positive total; zero-valued rows
contribute nothing to either column or total. -/
theorem aggregation_sign_law (batt : Bool) (vals negCol posCol : List ℚ) (tin tout : ℚ)
    (hn : vals.length ≤ negCol.length) (hp : vals.length ≤ posCol.length) :
    (∀ k, k < vals.length →
        (tally_channel batt vals 0 negCol posCol tin tout).1.getD k 0
          = negCol.getD k 0 + negRouted batt (vals.getD k 0)
        ∧ (tally_channel batt vals 0 negCol posCol tin tout).2.1.getD k 0
          = posCol.getD k 0 + posRouted batt (vals.getD k 0))
    ∧ (tally_channel batt vals 0 negCol posCol tin tout).2.2.1
        = tin + (vals.map (negRouted batt)).sum
    ∧ (tally_channel batt vals 0 negCol posCol tin tout).2.2.2
        = tout + (vals.map (posRouted batt)).sum := by
  obtain ⟨l1, l2, lo, hi, s1, s2⟩ := tally_channel_spec batt vals 0 negCol posCol tin tout
  refine ⟨fun k hk => ?_, s1, s2⟩
  have := hi k hk (by omega) (by omega)
  simpa using this

/-- Witness for C5: a load channel reporting +50 contributes −50 to its
category's negative column and negative total; a non-load channel
reporting −30 contributes −30 to the negative column unchanged. -/
theorem aggregation_sign_law_witness :
    ((∀ k, k < ([50] : List ℚ).length →
        (tally_channel true [50] 0 [0] [0] 0 0).1.getD k 0
          = ([0] : List ℚ).getD k 0 + negRouted true (([50] : List ℚ).getD k 0)
        ∧ (tally_channel true [50] 0 [0] [0] 0 0).2.1.getD k 0
          = ([0] : List ℚ).getD k 0 + posRouted true (([50] : List ℚ).getD k 0))
      ∧ (tally_channel true [50] 0 [0] [0] 0 0).2.2.1
          = 0 + (([50] : List ℚ).map (negRouted true)).sum
      ∧ (tally_channel true [50] 0 [0] [0] 0 0).2.2.2
          = 0 + (([50] : List ℚ).map (posRouted true)).sum)
    ∧ ((∀ k, k < ([-30] : List ℚ).length →
        (tally_channel false [-30] 0 [0] [0] 0 0).1.getD k 0
          = ([0] : List ℚ).getD k 0 + negRouted false (([-30] : List ℚ).getD k 0)
        ∧ (tally_channel false [-30] 0 [0] [0] 0 0).2.1.getD k 0
          = ([0] : List ℚ).getD k 0 + posRouted false (([-30] : List ℚ).getD k 0))
      ∧ (tally_channel false [-30] 0 [0] [0] 0 0).2.2.1
          = 0 + (([-30] : List ℚ).map (negRouted false)).sum
      ∧ (tally_channel false [-30] 0 [0] [0] 0 0).2.2.2
          = 0 + (([-30] : List ℚ).map (posRouted false)).sum)
    ∧ negRouted true 50 = -50 ∧ negRouted false (-30) = -30 :=
  ⟨aggregation_sign_law true [50] [0] [0] 0 0 (by simp) (by simp),
   aggregation_sign_law false [-30] [0] [0] 0 0 (by simp) (by simp),
   by norm_num [negRouted], by norm_num [negRouted]⟩

/-! ### Out/In ratio threshold (`NEMWeb.build_cat_and_in_out_dfs`)

NEMWeb.py lines 1172-1191: `in_out_MW /= row_count` turns the running
totals into averages, then for each channel the Out/In ratio is set to
`in_out_MW[i, 1] / -in_out_MW[i, 0]` exactly when
`-in_out_MW[i, 0] > 0.1`, and is otherwise left at its initial 0. -/

/-- The ratio computation on one channel's averaged entries. -/
def turnaround_ratio (avgIn avgOut : ℚ) : ℚ :=
  if 1 / 10 < -avgIn then avgOut / -avgIn else 0

/-- The per-channel finishing step: divide the running totals by the row
count, then compute the ratio; returns (avg in, avg out, ratio). -/
def channel_in_out (tin tout : ℚ) (rowCount : ℕ) : ℚ × ℚ × ℚ :=
  (tin / rowCount, tout / rowCount, turnaround_ratio (tin / rowCount) (tout / rowCount))

/-- C6: after the totals are divided by the row count, the Out/In ratio
equals `out / |in|` exactly when `|in|` (the averaged negative total)
exceeds the threshold 1/10, and is left at zero otherwise; when the
threshold is exceeded the ratio also equals the ratio of the undivided
totals `tout / |tin|`. -/
theorem ratio_threshold (tin tout : ℚ) (n : ℕ) (hin : tin ≤ 0) (hn : 0 < n) :
    (channel_in_out tin tout n).2.2
      = (if 1 / 10 < |tin / n| then (tout / n) / |tin / n| else 0)
    ∧ (1 / 10 < |tin / n| → (channel_in_out tin tout n).2.2 = tout / |tin|) := by
  have hn0 : (0:ℚ) < n := by exact_mod_cast hn
  have hdiv : tin / (n:ℚ) ≤ 0 := div_nonpos_of_nonpos_of_nonneg hin hn0.le
  have habs : |tin / (n:ℚ)| = -(tin / n) := abs_of_nonpos hdiv
  constructor
  · rw [habs]
    rfl
  · intro hth
    rw [habs] at hth
    have htin : tin < 0 := by
      by_contra hc
      have : tin = 0 := le_antisymm hin (not_lt.mp hc)
      rw [this] at hth
      norm_num at hth
    have habs2 : |tin| = -tin := abs_of_nonpos hin
    show turnaround_ratio (tin / n) (tout / n) = tout / |tin|
    rw [turnaround_ratio, if_pos hth, habs2, ← neg_div]
    have hne : (n:ℚ) ≠ 0 := ne_of_gt hn0
    have htne : tin ≠ 0 := ne_of_lt htin
    field_simp
  
/-- Witness for C6: averaged totals (−5, 4) (totals −50, 40 over 10
rows) give ratio 4/5; a channel with averaged negative total −1/20
(total −1/2 over 10 rows) stays at ratio 0. -/
theorem ratio_threshold_witness :
    ((channel_in_out (-50) 40 10).2.2
        = (if 1 / 10 < |(-50 : ℚ) / (10:ℕ)| then ((40:ℚ) / (10:ℕ)) / |(-50:ℚ) / (10:ℕ)| else 0)
      ∧ (1 / 10 < |(-50:ℚ) / (10:ℕ)| → (channel_in_out (-50) 40 10).2.2 = 40 / |(-50:ℚ)|))
    ∧ ((channel_in_out (-1/2) 40 10).2.2
        = (if 1 / 10 < |(-1/2 : ℚ) / (10:ℕ)| then ((40:ℚ) / (10:ℕ)) / |(-1/2:ℚ) / (10:ℕ)| else 0)
      ∧ (1 / 10 < |(-1/2:ℚ) / (10:ℕ)| → (channel_in_out (-1/2) 40 10).2.2 = 40 / |(-1/2:ℚ)|))
    ∧ (channel_in_out (-50) 40 10).2.2 = 4/5
    ∧ (channel_in_out (-1/2) 40 10).2.2 = 0 :=
  ⟨ratio_threshold (-50) 40 10 (by norm_num) (by norm_num),
   ratio_threshold (-1/2) 40 10 (by norm_num) (by norm_num),
   by norm_num [channel_in_out, turnaround_ratio],
   by norm_num [channel_in_out, turnaround_ratio]⟩

/-! ### Resampler (`NEMWeb.add_rooftop_solar_data`)

NEMWeb.py lines 1039-1070: for each region column, `start_power` is the
first 30-minute sample; then for `row6 in range(0, len(nwdf) - 1, 6)`
the next sample `end_power` is drawn and, only when `end_power != 0`
**and** `start_power != 0`, the six destination rows `row6 .. row6+5`
are written with `y = start_power`, `dy = (end_power - start_power)/6`,
`y += dy` per row; then `start_power = end_power`.  (If the 30-minute
series is shorter than the destination requires, Python's `next` would
raise; the claims only concern executed blocks.) -/

/-- The inner 6-row write loop. -/
def writeBlock (dest : List ℚ) (i : ℕ) (y dy : ℚ) : ℕ → List ℚ
  | 0 => dest
  | n + 1 => writeBlock (dest.set i y) (i + 1) (y + dy) dy n

/-- The per-column block loop; `v0` is the current `start_power`. -/
def add_rooftop_go (dest : List ℚ) (v0 : ℚ) : List ℚ → ℕ → List ℚ
  | [], _ => dest
  | v1 :: rest, row6 =>
    if row6 < dest.length - 1 then
      add_rooftop_go
        (if v1 ≠ 0 ∧ v0 ≠ 0 then writeBlock dest row6 v0 ((v1 - v0) / 6) 6 else dest)
        v1 rest (row6 + 6)
    else dest

/-- One region column of `add_rooftop_solar_data`: `dest` is the
master-grid column, `rt` the 30-minute samples. -/
def add_rooftop_solar_col (dest rt : List ℚ) : List ℚ :=
  match rt with
  | [] => dest
  | v0 :: rest => add_rooftop_go dest v0 rest 0

theorem writeBlock_length (n : ℕ) : ∀ (dest : List ℚ) (i : ℕ) (y dy : ℚ),
    (writeBlock dest i y dy n).length = dest.length := by
  induction n with
  | zero => intro dest i y dy; rfl
  | succ n ih => intro dest i y dy; rw [writeBlock, ih]; simp

theorem writeBlock_getD_out (n : ℕ) : ∀ (dest : List ℚ) (i : ℕ) (y dy : ℚ) (p : ℕ),
    (p < i ∨ i + n ≤ p) → (writeBlock dest i y dy n).getD p 0 = dest.getD p 0 := by
  induction n with
  | zero => intro dest i y dy p _; rfl
  | succ n ih =>
    intro dest i y dy p hp
    rw [writeBlock, ih _ _ _ _ _ (by omega), getD_set_ne _ _ _ _ _ (by omega)]

theorem writeBlock_getD_in (n : ℕ) : ∀ (dest : List ℚ) (i : ℕ) (y dy : ℚ) (j : ℕ),
    j < n → i + j < dest.length →
    (writeBlock dest i y dy n).getD (i + j) 0 = y + j * dy := by
  induction n with
  | zero => intro dest i y dy j hj _; omega
  | succ n ih =>
    intro dest i y dy j hj hlen
    cases j with
    | zero =>
      simp only [Nat.add_zero] at hlen ⊢
      rw [writeBlock, writeBlock_getD_out n _ _ _ _ _ (by omega),
        getD_set_self _ _ _ _ hlen]
      push_cast
      ring
    | succ j =>
      rw [writeBlock, show i + (j + 1) = (i + 1) + j from by omega,
        ih _ _ _ _ j (by omega) (by simpa using (by omega : i + 1 + j < dest.length))]
      push_cast
      ring

theorem add_rooftop_go_length (rts : List ℚ) : ∀ (dest : List ℚ) (v0 : ℚ) (row6 : ℕ),
    (add_rooftop_go dest v0 rts row6).length = dest.length := by
  induction rts with
  | nil => intro dest v0 row6; rfl
  | cons v1 rest ih =>
    intro dest v0 row6
    rw [add_rooftop_go]
    by_cases hr : row6 < dest.length - 1
    · rw [if_pos hr, ih]
      by_cases hz : v1 ≠ 0 ∧ v0 ≠ 0
      · rw [if_pos hz, writeBlock_length]
      · rw [if_neg hz]
    · rw [if_neg hr]

theorem add_rooftop_go_lt (rts : List ℚ) : ∀ (dest : List ℚ) (v0 : ℚ) (row6 p : ℕ),
    p < row6 → (add_rooftop_go dest v0 rts row6).getD p 0 = dest.getD p 0 := by
  induction rts with
  | nil => intro dest v0 row6 p _; rfl
  | cons v1 rest ih =>
    intro dest v0 row6 p hp
    rw [add_rooftop_go]
    by_cases hr : row6 < dest.length - 1
    · rw [if_pos hr, ih _ _ _ _ (by omega)]
      by_cases hz : v1 ≠ 0 ∧ v0 ≠ 0
      · rw [if_pos hz, writeBlock_getD_out _ _ _ _ _ _ (by omega)]
      · rw [if_neg hz]
    · rw [if_neg hr]

theorem add_rooftop_go_hi (rts : List ℚ) : ∀ (dest : List ℚ) (v0 : ℚ) (row6 p : ℕ),
    row6 + 6 * rts.length ≤ p →
    (add_rooftop_go dest v0 rts row6).getD p 0 = dest.getD p 0 := by
  induction rts with
  | nil => intro dest v0 row6 p _; rfl
  | cons v1 rest ih =>
    intro dest v0 row6 p hp
    rw [add_rooftop_go]
    by_cases hr : row6 < dest.length - 1
    · have hlen : (if v1 ≠ 0 ∧ v0 ≠ 0 then writeBlock dest row6 v0 ((v1 - v0) / 6) 6
          else dest).length = dest.length := by
        by_cases hz : v1 ≠ 0 ∧ v0 ≠ 0
        · rw [if_pos hz, writeBlock_length]
        · rw [if_neg hz]
      rw [if_pos hr, ih _ _ _ _ (by simp only [List.length_cons] at hp; omega)]
      by_cases hz : v1 ≠ 0 ∧ v0 ≠ 0
      · rw [if_pos hz, writeBlock_getD_out _ _ _ _ _ _
          (by simp only [List.length_cons] at hp; omega)]
      · rw [if_neg hz]
    · rw [if_neg hr]

theorem add_rooftop_go_block (b : ℕ) : ∀ (rts : List ℚ) (v0 : ℚ) (dest : List ℚ)
    (row6 i : ℕ), i < 6 → b < rts.length → row6 + 6 * b + 6 ≤ dest.length →
    (add_rooftop_go dest v0 rts row6).getD (row6 + 6 * b + i) 0
      = if (v0 :: rts).getD b 0 ≠ 0 ∧ rts.getD b 0 ≠ 0
        then (v0 :: rts).getD b 0
          + i * ((rts.getD b 0 - (v0 :: rts).getD b 0) / 6)
        else dest.getD (row6 + 6 * b + i) 0 := by
  induction b with
  | zero =>
    intro rts v0 dest row6 i hi hb hlen
    cases rts with
    | nil => simp at hb
    | cons v1 rest =>
      rw [add_rooftop_go, if_pos (by omega)]
      simp only [List.getD_cons_zero]
      by_cases hz : v1 ≠ 0 ∧ v0 ≠ 0
      · rw [if_pos hz, if_pos ⟨hz.2, hz.1⟩,
          add_rooftop_go_lt _ _ _ _ _ (by omega),
          show row6 + 6 * 0 + i = row6 + i from by omega,
          writeBlock_getD_in 6 _ _ _ _ i hi (by omega)]
      · rw [if_neg hz, if_neg (fun hc => hz ⟨hc.2, hc.1⟩),
          add_rooftop_go_lt _ _ _ _ _ (by omega)]
  | succ b ih =>
    intro rts v0 dest row6 i hi hb hlen
    cases rts with
    | nil => simp at hb
    | cons v1 rest =>
      rw [add_rooftop_go, if_pos (by omega)]
      have hlen2 : (if v1 ≠ 0 ∧ v0 ≠ 0 then writeBlock dest row6 v0 ((v1 - v0) / 6) 6
          else dest).length = dest.length := by
        by_cases hz : v1 ≠ 0 ∧ v0 ≠ 0
        · rw [if_pos hz, writeBlock_length]
        · rw [if_neg hz]
      have hb' : b < rest.length := by simpa using hb
      have := ih rest v1 _ (row6 + 6) i hi hb' (by rw [hlen2]; omega)
      rw [show row6 + 6 * (b + 1) + i = row6 + 6 + 6 * b + i from by omega, this]
      simp only [List.getD_cons_succ]
      by_cases hc : (v1 :: rest).getD b 0 ≠ 0 ∧ rest.getD b 0 ≠ 0
      · rw [if_pos hc, if_pos hc]
      · rw [if_neg hc, if_neg hc]
        by_cases hz : v1 ≠ 0 ∧ v0 ≠ 0
        · rw [if_pos hz, writeBlock_getD_out _ _ _ _ _ _ (by omega)]
        · rw [if_neg hz]

/-- C2 (amended): for the pair of consecutive secondary samples
`(v0, v1) = (rt[b], rt[b+1])` mapped to the 6 destination rows
`6b .. 6b+5`, if **both** `v0` and `v1` are non-zero then destination
row `6b + i` receives `v0 + i·(v1−v0)/6` for `i = 0..5`; if `v0` is zero
**or `v1` is zero** the six destination rows are not written (so they
keep their prior value, zero on the freshly assembled grid).  When
`(v0, v1)` is the last pair, row `6(b+1)` and everything after it is
never written: `v1` only seeds the next block. -/
theorem resampler_block_law (dest rt : List ℚ) (b i : ℕ) (hi : i < 6)
    (hb : b + 1 < rt.length) (hlen : 6 * b + 6 ≤ dest.length) :
    (add_rooftop_solar_col dest rt).getD (6 * b + i) 0
      = (if rt.getD b 0 ≠ 0 ∧ rt.getD (b + 1) 0 ≠ 0
         then rt.getD b 0 + i * ((rt.getD (b + 1) 0 - rt.getD b 0) / 6)
         else dest.getD (6 * b + i) 0)
    ∧ (rt.length = b + 2 → ∀ p, 6 * (b + 1) ≤ p →
        (add_rooftop_solar_col dest rt).getD p 0 = dest.getD p 0) := by
  cases rt with
  | nil => simp at hb
  | cons r0 rts =>
    constructor
    · have := add_rooftop_go_block b rts r0 dest 0 i hi (by simpa using hb)
        (by omega)
      rw [add_rooftop_solar_col, show 6 * b + i = 0 + 6 * b + i from by omega, this]
      simp only [List.getD_cons_succ]
    · intro hlast p hp
      rw [add_rooftop_solar_col, add_rooftop_go_hi]
      have : rts.length = b + 1 := by simpa using hlast
      omega

/-- Counterexample to C2 as stated: with samples `(v0, v1) = (10, 0)`
over a zero-filled 7-row destination, the claim predicts destination
row 1 receives `10 + 1·(0−10)/6 = 25/3`, but the code leaves the row
unwritten at 0 because `v1 = 0` fails the `end_power != 0` guard. -/
theorem resampler_block_law_cx :
    (add_rooftop_solar_col (List.replicate 7 0) [10, 0]).getD 1 0 = 0
    ∧ ((10 : ℚ) + 1 * (((0 : ℚ) - 10) / 6) ≠ 0) := by
  constructor
  · rfl
  · norm_num

/-- Witness for C2 (amended): samples `(10, 16)` over a zero-filled
7-row destination; destination row 1 receives 11 and trailing rows stay
untouched. -/
theorem resampler_block_law_witness :
    ((add_rooftop_solar_col (List.replicate 7 0) [10, 16]).getD (6 * 0 + 1) 0
      = (if ([10, 16] : List ℚ).getD 0 0 ≠ 0 ∧ ([10, 16] : List ℚ).getD (0 + 1) 0 ≠ 0
         then ([10, 16] : List ℚ).getD 0 0
           + (1:ℕ) * ((([10, 16] : List ℚ).getD (0 + 1) 0 - ([10, 16] : List ℚ).getD 0 0) / 6)
         else (List.replicate 7 (0:ℚ)).getD (6 * 0 + 1) 0)
    ∧ (([10, 16] : List ℚ).length = 0 + 2 → ∀ p, 6 * (0 + 1) ≤ p →
        (add_rooftop_solar_col (List.replicate 7 0) [10, 16]).getD p 0
          = (List.replicate 7 (0:ℚ)).getD p 0))
    ∧ (add_rooftop_solar_col (List.replicate 7 0) [10, 16]).getD 1 0 = 11 :=
  ⟨resampler_block_law (List.replicate 7 0) [10, 16] 0 1 (by norm_num) (by norm_num)
      (by norm_num),
   by norm_num [add_rooftop_solar_col, add_rooftop_go, writeBlock, List.replicate]⟩

/-! ### Gap repair (`repair_missing_periods` / `repair`)

NEMWeb.py lines 1228-1288.  The grid is a list of rows (one row per
5-minute interval, one entry per column).  `repair_missing_periods`
scans the row totals in order: a run opens at the first total below the
2.0 threshold and closes at the first subsequent total at or above it;
an interior run `[start, end)` is repaired by
`repair(df, start, end, start-1, end)`, a leading run by
`repair(df, start, end, end, end)` and a trailing run by
`repair(df, start, len, start-1, start-1)`.  `repair` initialises a row
of accumulators from row `prior`; when `prior == post` it writes that
row constantly over `[start, end)`, otherwise it adds
`(row[post] - row[prior]) / (end - start)` once per written row. -/

/-- Pointwise row addition (`accums_GW += deltas_GW`). -/
def vadd (xs ys : List ℚ) : List ℚ := List.zipWith (· + ·) xs ys

/-- The iteration deltas `(df.iloc[post] - accums) / num_intervals`. -/
def vdeltas (post acc : List ℚ) (num : ℚ) : List ℚ :=
  List.zipWith (fun p a => (p - a) / num) post acc

/-- Python `df.iloc[i]` row read with negative-index wraparound. -/
def getRowI (df : List (List ℚ)) (i : ℤ) : List ℚ :=
  if 0 ≤ i then df.getD i.toNat [] else df.getD (df.length - (-i).toNat) []

/-- The `prior == post` write loop of `repair`. -/
def constFill (df : List (List ℚ)) (acc : List ℚ) (s : ℕ) : ℕ → List (List ℚ)
  | 0 => df
  | n + 1 => constFill (df.set s acc) acc (s + 1) n

/-- The interpolating write loop of `repair`. -/
def interpFill (df : List (List ℚ)) (acc d : List ℚ) (s : ℕ) : ℕ → List (List ℚ)
  | 0 => df
  | n + 1 => interpFill (df.set s acc) (vadd acc d) d (s + 1) n

/-- `repair(df_MW, start, end, prior, post)` (NEMWeb.py lines 1268-1288). -/
def repair (df : List (List ℚ)) (s e : ℕ) (prior post : ℤ) : List (List ℚ) :=
  let accums := getRowI df prior
  if prior = post then constFill df accums s (e - s)
  else interpFill df accums (vdeltas (getRowI df post) accums ((e - s : ℕ) : ℚ)) s (e - s)

/-- The scanning loop of `repair_missing_periods` (NEMWeb.py lines
1234-1265); `i` is the absolute row index and the `Option` holds the
open run's `start`. -/
def rmpGo (df : List (List ℚ)) (i : ℕ) : Option ℕ → List ℚ → List (List ℚ)
  | none, [] => df
  | some s, [] => repair df s i ((s : ℤ) - 1) ((s : ℤ) - 1)
  | none, p :: rest =>
    if p < 2 then rmpGo df (i + 1) (some i) rest
    else rmpGo df (i + 1) none rest
  | some s, p :: rest =>
    if p < 2 then rmpGo df (i + 1) (some s) rest
    else
      rmpGo
        (if 0 < s then repair df s i ((s : ℤ) - 1) (i : ℤ)
         else repair df s i (i : ℤ) (i : ℤ))
        (i + 1) none rest

/-- `repair_missing_periods(df_MW, row_sum_5min_GW)`. -/
def repair_missing_periods (df : List (List ℚ)) (sums : List ℚ) : List (List ℚ) :=
  rmpGo df 0 none sums

/-- `getD` after `set` at the written index (row lists). -/
theorem getDL_set_self (l : List (List ℚ)) (i : ℕ) (a : List ℚ) (h : i < l.length) :
    (l.set i a).getD i [] = a := by
  simp [List.getD, List.getElem?_set_eq_of_lt a h]

/-- `getD` after `set` at a different index (row lists). -/
theorem getDL_set_ne (l : List (List ℚ)) (i j : ℕ) (a : List ℚ) (h : i ≠ j) :
    (l.set i a).getD j [] = l.getD j [] := by
  simp [List.getD, List.getElem?_set_ne h]

/-- `getD` of a `zipWith` at an in-range index. -/
theorem getD_zipWith (f : ℚ → ℚ → ℚ) (a : List ℚ) : ∀ (b : List ℚ) (c : ℕ),
    c < a.length → a.length = b.length →
    (List.zipWith f a b).getD c 0 = f (a.getD c 0) (b.getD c 0) := by
  induction a with
  | nil => intro b c hc _; simp at hc
  | cons x xs ih =>
    intro b c hc hab
    cases b with
    | nil => simp at hab
    | cons y ys =>
      cases c with
      | zero => simp
      | succ c =>
        simp only [List.zipWith_cons_cons, List.getD_cons_succ]
        exact ih ys c (by simpa using hc) (by simpa using hab)

/-- An in-range `getD` row of a grid of `w`-wide rows has length `w`. -/
theorem row_length (df : List (List ℚ)) (w k : ℕ) (hw : ∀ r ∈ df, r.length = w)
    (hk : k < df.length) : (df.getD k []).length = w := by
  apply hw
  rw [List.getD_eq_getElem _ _ hk]
  exact List.getElem_mem hk

/-- Accumulator after `j` delta additions. -/
def iterAcc (acc d : List ℚ) : ℕ → List ℚ
  | 0 => acc
  | j + 1 => iterAcc (vadd acc d) d j

theorem iterAcc_getD (j : ℕ) : ∀ (acc d : List ℚ) (c : ℕ), c < acc.length →
    acc.length = d.length →
    (iterAcc acc d j).getD c 0 = acc.getD c 0 + j * d.getD c 0 := by
  induction j with
  | zero => intro acc d c _ _; simp [iterAcc]
  | succ j ih =>
    intro acc d c hc hlen
    have hv : (vadd acc d).length = acc.length := by
      simp [vadd, List.length_zipWith, hlen]
    rw [iterAcc, ih (vadd acc d) d c (by omega) (by omega),
      show (vadd acc d).getD c 0 = acc.getD c 0 + d.getD c 0 from
        getD_zipWith _ _ _ _ hc hlen]
    push_cast
    ring

theorem constFill_length (n : ℕ) : ∀ (df : List (List ℚ)) (acc : List ℚ) (s : ℕ),
    (constFill df acc s n).length = df.length := by
  induction n with
  | zero => intro df acc s; rfl
  | succ n ih => intro df acc s; rw [constFill, ih]; simp

theorem constFill_getD_out (n : ℕ) : ∀ (df : List (List ℚ)) (acc : List ℚ) (s k : ℕ),
    (k < s ∨ s + n ≤ k) → (constFill df acc s n).getD k [] = df.getD k [] := by
  induction n with
  | zero => intro df acc s k _; rfl
  | succ n ih =>
    intro df acc s k hk
    rw [constFill, ih _ _ _ _ (by omega), getDL_set_ne _ _ _ _ (by omega)]

theorem constFill_getD_in (n : ℕ) : ∀ (df : List (List ℚ)) (acc : List ℚ) (s j : ℕ),
    j < n → s + j < df.length → (constFill df acc s n).getD (s + j) [] = acc := by
  induction n with
  | zero => intro df acc s j hj _; omega
  | succ n ih =>
    intro df acc s j hj hlen
    cases j with
    | zero =>
      simp only [Nat.add_zero] at hlen ⊢
      rw [constFill, constFill_getD_out n _ _ _ _ (by omega), getDL_set_self _ _ _ hlen]
    | succ j =>
      rw [constFill, show s + (j + 1) = (s + 1) + j from by omega,
        ih _ _ _ _ (by omega) (by simpa using (by omega : s + 1 + j < df.length))]

theorem interpFill_length (n : ℕ) : ∀ (df : List (List ℚ)) (acc d : List ℚ) (s : ℕ),
    (interpFill df acc d s n).length = df.length := by
  induction n with
  | zero => intro df acc d s; rfl
  | succ n ih => intro df acc d s; rw [interpFill, ih]; simp

theorem interpFill_getD_out (n : ℕ) : ∀ (df : List (List ℚ)) (acc d : List ℚ) (s k : ℕ),
    (k < s ∨ s + n ≤ k) → (interpFill df acc d s n).getD k [] = df.getD k [] := by
  induction n with
  | zero => intro df acc d s k _; rfl
  | succ n ih =>
    intro df acc d s k hk
    rw [interpFill, ih _ _ _ _ _ (by omega), getDL_set_ne _ _ _ _ (by omega)]

theorem interpFill_getD_in (n : ℕ) : ∀ (df : List (List ℚ)) (acc d : List ℚ) (s j : ℕ),
    j < n → s + j < df.length →
    (interpFill df acc d s n).getD (s + j) [] = iterAcc acc d j := by
  induction n with
  | zero => intro df acc d s j hj _; omega
  | succ n ih =>
    intro df acc d s j hj hlen
    cases j with
    | zero =>
      simp only [Nat.add_zero] at hlen ⊢
      rw [interpFill, interpFill_getD_out n _ _ _ _ _ (by omega),
        getDL_set_self _ _ _ hlen]
      rfl
    | succ j =>
      rw [interpFill, show s + (j + 1) = (s + 1) + j from by omega,
        ih _ _ _ _ _ (by omega) (by simpa using (by omega : s + 1 + j < df.length))]
      rfl

theorem repair_getD_out (df : List (List ℚ)) (s e : ℕ) (prior post : ℤ) (k : ℕ)
    (hk : k < s ∨ e ≤ k) : (repair df s e prior post).getD k [] = df.getD k [] := by
  rw [repair]
  by_cases hpp : prior = post
  · rw [if_pos hpp, constFill_getD_out _ _ _ _ _ (by omega)]
  · rw [if_neg hpp, interpFill_getD_out _ _ _ _ _ _ (by omega)]

theorem rmpGo_nil_none (df : List (List ℚ)) (i : ℕ) : rmpGo df i none [] = df := rfl

theorem rmpGo_nil_some (df : List (List ℚ)) (i s : ℕ) :
    rmpGo df i (some s) [] = repair df s i ((s : ℤ) - 1) ((s : ℤ) - 1) := rfl

theorem rmpGo_cons_none (df : List (List ℚ)) (i : ℕ) (p : ℚ) (rest : List ℚ) :
    rmpGo df i none (p :: rest)
      = if p < 2 then rmpGo df (i + 1) (some i) rest
        else rmpGo df (i + 1) none rest := rfl

theorem rmpGo_cons_some (df : List (List ℚ)) (i s : ℕ) (p : ℚ) (rest : List ℚ) :
    rmpGo df i (some s) (p :: rest)
      = if p < 2 then rmpGo df (i + 1) (some s) rest
        else rmpGo
          (if 0 < s then repair df s i ((s : ℤ) - 1) (i : ℤ)
           else repair df s i (i : ℤ) (i : ℤ)) (i + 1) none rest := rfl

/-- Scanning totals at or above the threshold with no open run leaves
the grid untouched and advances the index. -/
theorem rmp_skip (A : List ℚ) : ∀ (df : List (List ℚ)) (i : ℕ) (rest : List ℚ),
    (∀ x ∈ A, ¬ x < 2) →
    rmpGo df i none (A ++ rest) = rmpGo df (i + A.length) none rest := by
  induction A with
  | nil => intro df i rest _; simp
  | cons a A' ih =>
    intro df i rest hA
    rw [List.cons_append, rmpGo_cons_none, if_neg (hA a (by simp)),
      ih df (i + 1) rest (fun x hx => hA x (by simp [hx]))]
    simp only [List.length_cons]
    rw [show i + (A'.length + 1) = i + 1 + A'.length from by omega]

/-- Scanning totals below the threshold keeps the open run. -/
theorem rmp_inrun (B : List ℚ) : ∀ (df : List (List ℚ)) (i s : ℕ) (rest : List ℚ),
    (∀ x ∈ B, x < 2) →
    rmpGo df i (some s) (B ++ rest) = rmpGo df (i + B.length) (some s) rest := by
  induction B with
  | nil => intro df i s rest _; simp
  | cons b B' ih =>
    intro df i s rest hB
    rw [List.cons_append, rmpGo_cons_some, if_pos (hB b (by simp)),
      ih df (i + 1) s rest (fun x hx => hB x (by simp [hx]))]
    simp only [List.length_cons]
    rw [show i + (B'.length + 1) = i + 1 + B'.length from by omega]

/-- A wholly at-or-above-threshold tail with no open run leaves the grid
untouched. -/
theorem rmp_none_done (L : List ℚ) : ∀ (df : List (List ℚ)) (i : ℕ),
    (∀ x ∈ L, ¬ x < 2) → rmpGo df i none L = df := by
  induction L with
  | nil => intro df i _; rfl
  | cons a L' ih =>
    intro df i hL
    rw [rmpGo_cons_none, if_neg (hL a (by simp)), ih df (i + 1) (fun x hx => hL x (by simp [hx]))]

/-- The scan over a single-run total list performs exactly the matching
`repair` call. -/
theorem scan_single_run (df : List (List ℚ)) (A B C : List ℚ)
    (hA : ∀ x ∈ A, ¬ x < 2) (hB : ∀ x ∈ B, x < 2) (hC : ∀ x ∈ C, ¬ x < 2)
    (hBne : B ≠ []) :
    (C ≠ [] → repair_missing_periods df (A ++ B ++ C)
        = if 0 < A.length
          then repair df A.length (A.length + B.length)
            ((A.length : ℤ) - 1) ((A.length + B.length : ℕ) : ℤ)
          else repair df A.length (A.length + B.length)
            ((A.length + B.length : ℕ) : ℤ) ((A.length + B.length : ℕ) : ℤ))
    ∧ (C = [] → repair_missing_periods df (A ++ B ++ C)
        = repair df A.length (A.length + B.length)
            ((A.length : ℤ) - 1) ((A.length : ℤ) - 1)) := by
  obtain ⟨b, B', rfl⟩ := List.exists_cons_of_ne_nil hBne
  have step1 : repair_missing_periods df (A ++ (b :: B') ++ C)
      = rmpGo df (A.length + 1 + B'.length) (some A.length) C := by
    rw [repair_missing_periods, List.append_assoc, rmp_skip A df 0 _ hA, Nat.zero_add,
      List.cons_append, rmpGo_cons_none, if_pos (hB b (by simp)),
      rmp_inrun B' df (A.length + 1) A.length C (fun x hx => hB x (by simp [hx]))]
  have hlenB : (b :: B').length = B'.length + 1 := by simp
  constructor
  · intro hCne
    obtain ⟨c, C', rfl⟩ := List.exists_cons_of_ne_nil hCne
    rw [step1, rmpGo_cons_some, if_neg (hC c (by simp)),
      rmp_none_done C' _ _ (fun x hx => hC x (by simp [hx]))]
    rw [hlenB, show A.length + (B'.length + 1) = A.length + 1 + B'.length from by omega]
  · intro hCe
    subst hCe
    rw [step1, rmpGo_nil_some, hlenB,
      show A.length + (B'.length + 1) = A.length + 1 + B'.length from by omega]

theorem repair_self (df : List (List ℚ)) (s e : ℕ) (prior : ℤ) :
    repair df s e prior prior = constFill df (getRowI df prior) s (e - s) := by
  simp [repair]

theorem repair_ne (df : List (List ℚ)) (s e : ℕ) (prior post : ℤ) (h : prior ≠ post) :
    repair df s e prior post
      = interpFill df (getRowI df prior)
          (vdeltas (getRowI df post) (getRowI df prior) ((e - s : ℕ) : ℚ)) s (e - s) := by
  simp only [repair]
  rw [if_neg h]

/-- C1: on a grid whose row totals form one gap run — totals at or above
the 2.0 threshold (`A`), then below it (`B`, the run `[start, end)` with
`start = A.length`, `end = A.length + B.length`), then at or above it
again (`C`) — `repair_missing_periods` leaves every row before `start`
and from `end` on (including row `end`) unchanged; an interior run
(`A ≠ []`, `C ≠ []`) overwrites every column of rows `start .. end−1`
with `row[start−1][c] + j · (row[end][c] − row[start−1][c]) / (end−start)`
at offset `j`; a leading run (`A = []`) is filled with the constant row
at `end`; a trailing run (`C = []`) is filled with the constant row at
`start−1`. -/
theorem gap_repair (df : List (List ℚ)) (w : ℕ) (A B C : List ℚ)
    (hw : ∀ r ∈ df, r.length = w)
    (hlen : A.length + B.length + C.length = df.length)
    (hA : ∀ x ∈ A, ¬ x < 2) (hB : ∀ x ∈ B, x < 2) (hC : ∀ x ∈ C, ¬ x < 2)
    (hBne : B ≠ []) :
    (∀ k, k < A.length ∨ A.length + B.length ≤ k →
      (repair_missing_periods df (A ++ B ++ C)).getD k [] = df.getD k [])
    ∧ (A ≠ [] → C ≠ [] → ∀ j, j < B.length → ∀ c, c < w →
        ((repair_missing_periods df (A ++ B ++ C)).getD (A.length + j) []).getD c 0
          = (df.getD (A.length - 1) []).getD c 0
            + j * (((df.getD (A.length + B.length) []).getD c 0
                - (df.getD (A.length - 1) []).getD c 0) / (B.length : ℚ)))
    ∧ (A = [] → C ≠ [] → ∀ j, j < B.length →
        (repair_missing_periods df (A ++ B ++ C)).getD j [] = df.getD B.length [])
    ∧ (A ≠ [] → C = [] → ∀ j, j < B.length →
        (repair_missing_periods df (A ++ B ++ C)).getD (A.length + j) []
          = df.getD (A.length - 1) []) := by
  obtain ⟨scan1, scan2⟩ := scan_single_run df A B C hA hB hC hBne
  refine ⟨?_, ?_, ?_, ?_⟩
  · intro k hk
    by_cases hCe : C = []
    · rw [scan2 hCe, repair_getD_out df _ _ _ _ k hk]
    · rw [scan1 hCe]
      by_cases h0 : 0 < A.length
      · rw [if_pos h0, repair_getD_out df _ _ _ _ k hk]
      · rw [if_neg h0, repair_getD_out df _ _ _ _ k hk]
  · intro hAne hCne j hj c hc
    have h0 : 0 < A.length := List.length_pos.mpr hAne
    have hCl : 0 < C.length := List.length_pos.mpr hCne
    have hel : A.length + B.length < df.length := by omega
    have hsl : A.length - 1 < df.length := by omega
    have hrowa := row_length df w (A.length - 1) hw hsl
    have hrowp := row_length df w (A.length + B.length) hw hel
    have hacc : getRowI df ((A.length : ℤ) - 1) = df.getD (A.length - 1) [] := by
      rw [getRowI, if_pos (by omega : (0:ℤ) ≤ (A.length : ℤ) - 1)]
      congr 1
      omega
    have hpost : getRowI df ((A.length + B.length : ℕ) : ℤ)
        = df.getD (A.length + B.length) [] := by
      rw [getRowI, if_pos (by omega : (0:ℤ) ≤ ((A.length + B.length : ℕ) : ℤ)),
        show ((A.length + B.length : ℕ) : ℤ).toNat = A.length + B.length from by omega]
    have hd : (vdeltas (df.getD (A.length + B.length) []) (df.getD (A.length - 1) [])
        ((B.length : ℕ) : ℚ)).length = w := by
      simp only [vdeltas, List.length_zipWith, hrowa, hrowp, min_self]
    rw [scan1 hCne, if_pos h0,
      repair_ne df _ _ _ _ (by omega : ((A.length : ℤ) - 1) ≠ ((A.length + B.length : ℕ) : ℤ)),
      hacc, hpost, show A.length + B.length - A.length = B.length from by omega,
      interpFill_getD_in _ _ _ _ _ _ hj (by omega),
      iterAcc_getD _ _ _ _ (by rw [hrowa]; exact hc) (by rw [hrowa, hd]),
      show (vdeltas (df.getD (A.length + B.length) []) (df.getD (A.length - 1) [])
          ((B.length : ℕ) : ℚ)).getD c 0
        = ((df.getD (A.length + B.length) []).getD c 0
            - (df.getD (A.length - 1) []).getD c 0) / ((B.length : ℕ) : ℚ) from
        getD_zipWith _ _ _ _ (by rw [hrowp]; exact hc) (by rw [hrowp, hrowa])]
  · intro hAe hCne j hj
    subst hAe
    have hCl : 0 < C.length := List.length_pos.mpr hCne
    rw [scan1 hCne, if_neg (by simp), repair_self]
    have hacc : getRowI df ((([] : List ℚ).length + B.length : ℕ) : ℤ)
        = df.getD B.length [] := by
      rw [getRowI, if_pos (by omega : (0:ℤ) ≤ ((([] : List ℚ).length + B.length : ℕ) : ℤ)),
        show ((([] : List ℚ).length + B.length : ℕ) : ℤ).toNat = B.length from by simp]
    rw [hacc, show j = ([] : List ℚ).length + j from by simp,
      constFill_getD_in _ _ _ _ _ (by simpa using hj) (by simp at hlen ⊢; omega)]
  · intro hAne hCe j hj
    subst hCe
    have h0 : 0 < A.length := List.length_pos.mpr hAne
    rw [scan2 rfl, repair_self]
    have hacc : getRowI df ((A.length : ℤ) - 1) = df.getD (A.length - 1) [] := by
      rw [getRowI, if_pos (by omega : (0:ℤ) ≤ (A.length : ℤ) - 1)]
      congr 1
      omega
    rw [hacc, constFill_getD_in _ _ _ _ _
      (by omega : j < A.length + B.length - A.length) (by simp at hlen; omega)]

/-- The spec's gap-repair example grid: one column, row totals
`[5, 5, 1, 1, 1, 6, 6]`. -/
def gapDemoGrid : List (List ℚ) := [[5], [5], [1], [1], [1], [6], [6]]

/-- Witness for C1 at totals `[5, 5] ++ [1, 1, 1] ++ [6, 6]`: rows 2–4
form one interior gap repaired by interpolation between the row-1 and
row-5 values. -/
theorem gap_repair_witness :
    (∀ k, k < ([5, 5] : List ℚ).length
        ∨ ([5, 5] : List ℚ).length + ([1, 1, 1] : List ℚ).length ≤ k →
      (repair_missing_periods gapDemoGrid
          (([5, 5] : List ℚ) ++ [1, 1, 1] ++ [6, 6])).getD k []
        = gapDemoGrid.getD k [])
    ∧ (([5, 5] : List ℚ) ≠ [] → ([6, 6] : List ℚ) ≠ [] →
        ∀ j, j < ([1, 1, 1] : List ℚ).length → ∀ c, c < 1 →
        ((repair_missing_periods gapDemoGrid
            (([5, 5] : List ℚ) ++ [1, 1, 1] ++ [6, 6])).getD
              (([5, 5] : List ℚ).length + j) []).getD c 0
          = (gapDemoGrid.getD (([5, 5] : List ℚ).length - 1) []).getD c 0
            + j * (((gapDemoGrid.getD
                  (([5, 5] : List ℚ).length + ([1, 1, 1] : List ℚ).length) []).getD c 0
                - (gapDemoGrid.getD (([5, 5] : List ℚ).length - 1) []).getD c 0)
              / (([1, 1, 1] : List ℚ).length : ℚ)))
    ∧ (([5, 5] : List ℚ) = [] → ([6, 6] : List ℚ) ≠ [] →
        ∀ j, j < ([1, 1, 1] : List ℚ).length →
        (repair_missing_periods gapDemoGrid
            (([5, 5] : List ℚ) ++ [1, 1, 1] ++ [6, 6])).getD j []
          = gapDemoGrid.getD ([1, 1, 1] : List ℚ).length [])
    ∧ (([5, 5] : List ℚ) ≠ [] → ([6, 6] : List ℚ) = [] →
        ∀ j, j < ([1, 1, 1] : List ℚ).length →
        (repair_missing_periods gapDemoGrid
            (([5, 5] : List ℚ) ++ [1, 1, 1] ++ [6, 6])).getD
              (([5, 5] : List ℚ).length + j) []
          = gapDemoGrid.getD (([5, 5] : List ℚ).length - 1) []) :=
  gap_repair gapDemoGrid 1 [5, 5] [1, 1, 1] [6, 6]
    (by intro r hr; fin_cases hr <;> rfl) rfl
    (by intro x hx; fin_cases hx <;> norm_num)
    (by intro x hx; fin_cases hx <;> norm_num)
    (by intro x hx; fin_cases hx <;> norm_num)
    (by simp)

/-! ### C3: merge of the three per-tier file listings (select_files, NEMWeb.py 386-499).
Period keys (8-digit date strings compared lexicographically in the code) are modeled
as naturals; the sentinel "9" that compares greater than every key corresponds to the
absent head of an exhausted cursor, so each cursor is just the remaining sorted list.
One loop iteration picks the smallest current head, preferring the earlier-checked tier
on ties because the code only overrides on a strictly smaller key, then advances every
cursor whose head equals the selected key. -/


inductive Tier where
  | lp : Tier
  | lz : Tier
  | rz : Tier
  deriving DecidableEq, Repr

def chooseStep (cur : Option (ℕ × Tier)) (head : Option ℕ) (t : Tier) : Option (ℕ × Tier) :=
  match head with
  | none => cur
  | some k =>
    match cur with
    | none => some (k, t)
    | some (y, t0) => if k < y then some (k, t) else some (y, t0)

def choose (lp lz rz : List ℕ) : Option (ℕ × Tier) :=
  chooseStep (chooseStep (chooseStep none lp.head? Tier.lp) lz.head? Tier.lz) rz.head? Tier.rz

theorem choose_nil_nil_nil : choose [] [] [] = none := rfl

theorem chooseStep_none_head (cur : Option (ℕ × Tier)) (t : Tier) :
    chooseStep cur none t = cur := rfl

theorem chooseStep_some_some (y : ℕ) (t0 : Tier) (k : ℕ) (t : Tier) :
    chooseStep (some (y, t0)) (some k) t
      = if k < y then some (k, t) else some (y, t0) := rfl

theorem choose_closed (a b c : ℕ) (LP LZ RZ : List ℕ) :
    (choose (a :: LP) (b :: LZ) (c :: RZ)
      = if c < (if b < a then b else a) then some (c, Tier.rz)
        else if b < a then some (b, Tier.lz) else some (a, Tier.lp))
    ∧ (choose (a :: LP) (b :: LZ) []
      = if b < a then some (b, Tier.lz) else some (a, Tier.lp))
    ∧ (choose (a :: LP) [] (c :: RZ)
      = if c < a then some (c, Tier.rz) else some (a, Tier.lp))
    ∧ (choose [] (b :: LZ) (c :: RZ)
      = if c < b then some (c, Tier.rz) else some (b, Tier.lz))
    ∧ (choose (a :: LP) [] [] = some (a, Tier.lp))
    ∧ (choose [] (b :: LZ) [] = some (b, Tier.lz))
    ∧ (choose [] [] (c :: RZ) = some (c, Tier.rz)) := by
  refine ⟨?_, ?_, ?_, ?_, rfl, rfl, rfl⟩
  · show chooseStep (chooseStep (some (a, Tier.lp)) (some b) Tier.lz) (some c) Tier.rz = _
    rw [chooseStep_some_some]
    by_cases hba : b < a
    · rw [if_pos hba, chooseStep_some_some, if_pos hba]
    · rw [if_neg hba, chooseStep_some_some, if_neg hba]
  · show chooseStep (chooseStep (some (a, Tier.lp)) (some b) Tier.lz) none Tier.rz = _
    rw [chooseStep_none_head, chooseStep_some_some]
  · show chooseStep (some (a, Tier.lp)) (some c) Tier.rz = _
    rw [chooseStep_some_some]
  · show chooseStep (some (b, Tier.lz)) (some c) Tier.rz = _
    rw [chooseStep_some_some]

theorem choose_spec (lp lz rz : List ℕ) (y : ℕ) (t : Tier)
    (h : choose lp lz rz = some (y, t)) :
    (∀ k, lp.head? = some k → y ≤ k) ∧ (∀ k, lz.head? = some k → y ≤ k)
    ∧ (∀ k, rz.head? = some k → y ≤ k)
    ∧ (lp.head? = some y ∨ lz.head? = some y ∨ rz.head? = some y)
    ∧ (lp.head? = some y → t = Tier.lp)
    ∧ (¬ lp.head? = some y → lz.head? = some y → t = Tier.lz)
    ∧ (¬ lp.head? = some y → ¬ lz.head? = some y → t = Tier.rz) := by
  cases lp with
  | nil =>
    cases lz with
    | nil =>
      cases rz with
      | nil => exact absurd h (by simp [choose_nil_nil_nil])
      | cons c RZ =>
        rw [(choose_closed 0 0 c [] [] RZ).2.2.2.2.2.2] at h
        obtain ⟨rfl, rfl⟩ : c = y ∧ Tier.rz = t := by simpa using h
        refine ⟨by simp, by simp, ?_, ?_, by simp, by simp, fun _ _ => rfl⟩
        · intro k hk
          simp only [List.head?_cons, Option.some.injEq] at hk
          omega
        · exact Or.inr (Or.inr (by simp))
    | cons b LZ =>
      cases rz with
      | nil =>
        rw [(choose_closed 0 b 0 [] LZ []).2.2.2.2.2.1] at h
        obtain ⟨rfl, rfl⟩ : b = y ∧ Tier.lz = t := by simpa using h
        refine ⟨by simp, ?_, by simp, Or.inr (Or.inl (by simp)),
          by simp, fun _ _ => rfl, ?_⟩
        · intro k hk
          simp only [List.head?_cons, Option.some.injEq] at hk
          omega
        · intro _ hk
          exact absurd (by simp) hk
      | cons c RZ =>
        rw [(choose_closed 0 b c [] LZ RZ).2.2.2.1] at h
        by_cases hcb : c < b
        · rw [if_pos hcb] at h
          obtain ⟨rfl, rfl⟩ : c = y ∧ Tier.rz = t := by simpa using h
          refine ⟨by simp, ?_, ?_, Or.inr (Or.inr (by simp)), by simp, ?_, fun _ _ => rfl⟩
          · intro k hk
            simp only [List.head?_cons, Option.some.injEq] at hk
            omega
          · intro k hk
            simp only [List.head?_cons, Option.some.injEq] at hk
            omega
          · intro _ hk
            simp only [List.head?_cons, Option.some.injEq] at hk
            omega
        · rw [if_neg hcb] at h
          obtain ⟨rfl, rfl⟩ : b = y ∧ Tier.lz = t := by simpa using h
          refine ⟨by simp, ?_, ?_, Or.inr (Or.inl (by simp)), by simp, fun _ _ => rfl, ?_⟩
          · intro k hk
            simp only [List.head?_cons, Option.some.injEq] at hk
            omega
          · intro k hk
            simp only [List.head?_cons, Option.some.injEq] at hk
            omega
          · intro _ hk
            exact absurd (by simp) hk
  | cons a LP =>
    cases lz with
    | nil =>
      cases rz with
      | nil =>
        rw [(choose_closed a 0 0 LP [] []).2.2.2.2.1] at h
        obtain ⟨rfl, rfl⟩ : a = y ∧ Tier.lp = t := by simpa using h
        refine ⟨?_, by simp, by simp, Or.inl (by simp), fun _ => rfl, ?_, ?_⟩
        · intro k hk
          simp only [List.head?_cons, Option.some.injEq] at hk
          omega
        · intro hk
          exact absurd (by simp) hk
        · intro hk
          exact absurd (by simp) hk
      | cons c RZ =>
        rw [(choose_closed a 0 c LP [] RZ).2.2.1] at h
        by_cases hca : c < a
        · rw [if_pos hca] at h
          obtain ⟨rfl, rfl⟩ : c = y ∧ Tier.rz = t := by simpa using h
          refine ⟨?_, by simp, ?_, Or.inr (Or.inr (by simp)), ?_, by simp, fun _ _ => rfl⟩
          · intro k hk
            simp only [List.head?_cons, Option.some.injEq] at hk
            omega
          · intro k hk
            simp only [List.head?_cons, Option.some.injEq] at hk
            omega
          · intro hk
            simp only [List.head?_cons, Option.some.injEq] at hk
            omega
        · rw [if_neg hca] at h
          obtain ⟨rfl, rfl⟩ : a = y ∧ Tier.lp = t := by simpa using h
          refine ⟨?_, by simp, ?_, Or.inl (by simp), fun _ => rfl, ?_, ?_⟩
          · intro k hk
            simp only [List.head?_cons, Option.some.injEq] at hk
            omega
          · intro k hk
            simp only [List.head?_cons, Option.some.injEq] at hk
            omega
          · intro hk
            exact absurd (by simp) hk
          · intro hk
            exact absurd (by simp) hk
    | cons b LZ =>
      cases rz with
      | nil =>
        rw [(choose_closed a b 0 LP LZ []).2.1] at h
        by_cases hba : b < a
        · rw [if_pos hba] at h
          obtain ⟨rfl, rfl⟩ : b = y ∧ Tier.lz = t := by simpa using h
          refine ⟨?_, ?_, by simp, Or.inr (Or.inl (by simp)), ?_, fun _ _ => rfl, ?_⟩
          · intro k hk
            simp only [List.head?_cons, Option.some.injEq] at hk
            omega
          · intro k hk
            simp only [List.head?_cons, Option.some.injEq] at hk
            omega
          · intro hk
            simp only [List.head?_cons, Option.some.injEq] at hk
            omega
          · intro _ hk
            exact absurd (by simp) hk
        · rw [if_neg hba] at h
          obtain ⟨rfl, rfl⟩ : a = y ∧ Tier.lp = t := by simpa using h
          refine ⟨?_, ?_, by simp, Or.inl (by simp), fun _ => rfl, ?_, ?_⟩
          · intro k hk
            simp only [List.head?_cons, Option.some.injEq] at hk
            omega
          · intro k hk
            simp only [List.head?_cons, Option.some.injEq] at hk
            omega
          · intro hk
            exact absurd (by simp) hk
          · intro hk
            exact absurd (by simp) hk
      | cons c RZ =>
        rw [(choose_closed a b c LP LZ RZ).1] at h
        by_cases hba : b < a
        · rw [if_pos hba] at h
          by_cases hcb : c < b
          · rw [if_pos hcb] at h
            obtain ⟨rfl, rfl⟩ : c = y ∧ Tier.rz = t := by simpa using h
            refine ⟨?_, ?_, ?_, Or.inr (Or.inr (by simp)), ?_, ?_, fun _ _ => rfl⟩ <;>
              first
                | (intro k hk
                   simp only [List.head?_cons, Option.some.injEq] at hk
                   omega)
                | (intro hk
                   simp only [List.head?_cons, Option.some.injEq] at hk
                   omega)
                | (intro _ hk
                   simp only [List.head?_cons, Option.some.injEq] at hk
                   omega)
          · rw [if_neg hcb, if_pos hba] at h
            obtain ⟨rfl, rfl⟩ : b = y ∧ Tier.lz = t := by simpa using h
            refine ⟨?_, ?_, ?_, Or.inr (Or.inl (by simp)), ?_, fun _ _ => rfl, ?_⟩
            · intro k hk
              simp only [List.head?_cons, Option.some.injEq] at hk
              omega
            · intro k hk
              simp only [List.head?_cons, Option.some.injEq] at hk
              omega
            · intro k hk
              simp only [List.head?_cons, Option.some.injEq] at hk
              omega
            · intro hk
              simp only [List.head?_cons, Option.some.injEq] at hk
              omega
            · intro _ hk
              exact absurd (by simp) hk
        · rw [if_neg hba] at h
          by_cases hca : c < a
          · rw [if_pos hca] at h
            obtain ⟨rfl, rfl⟩ : c = y ∧ Tier.rz = t := by simpa using h
            refine ⟨?_, ?_, ?_, Or.inr (Or.inr (by simp)), ?_, ?_, fun _ _ => rfl⟩ <;>
              first
                | (intro k hk
                   simp only [List.head?_cons, Option.some.injEq] at hk
                   omega)
                | (intro hk
                   simp only [List.head?_cons, Option.some.injEq] at hk
                   omega)
                | (intro _ hk
                   simp only [List.head?_cons, Option.some.injEq] at hk
                   omega)
          · rw [if_neg hca, if_neg hba] at h
            obtain ⟨rfl, rfl⟩ : a = y ∧ Tier.lp = t := by simpa using h
            refine ⟨?_, ?_, ?_, Or.inl (by simp), fun _ => rfl, ?_, ?_⟩
            · intro k hk
              simp only [List.head?_cons, Option.some.injEq] at hk
              omega
            · intro k hk
              simp only [List.head?_cons, Option.some.injEq] at hk
              omega
            · intro k hk
              simp only [List.head?_cons, Option.some.injEq] at hk
              omega
            · intro hk
              exact absurd (by simp) hk
            · intro hk
              exact absurd (by simp) hk

theorem choose_none_iff (lp lz rz : List ℕ) :
    choose lp lz rz = none ↔ (lp = [] ∧ lz = [] ∧ rz = []) := by
  constructor
  · intro h
    cases lp with
    | nil =>
      cases lz with
      | nil =>
        cases rz with
        | nil => exact ⟨rfl, rfl, rfl⟩
        | cons c RZ =>
          rw [(choose_closed 0 0 c [] [] RZ).2.2.2.2.2.2] at h
          exact absurd h (by simp)
      | cons b LZ =>
        cases rz with
        | nil =>
          rw [(choose_closed 0 b 0 [] LZ []).2.2.2.2.2.1] at h
          exact absurd h (by simp)
        | cons c RZ =>
          rw [(choose_closed 0 b c [] LZ RZ).2.2.2.1] at h
          split_ifs at h <;> exact absurd h (by simp)
    | cons a LP =>
      cases lz with
      | nil =>
        cases rz with
        | nil =>
          rw [(choose_closed a 0 0 LP [] []).2.2.2.2.1] at h
          exact absurd h (by simp)
        | cons c RZ =>
          rw [(choose_closed a 0 c LP [] RZ).2.2.1] at h
          split_ifs at h <;> exact absurd h (by simp)
      | cons b LZ =>
        cases rz with
        | nil =>
          rw [(choose_closed a b 0 LP LZ []).2.1] at h
          split_ifs at h <;> exact absurd h (by simp)
        | cons c RZ =>
          rw [(choose_closed a b c LP LZ RZ).1] at h
          split_ifs at h <;> exact absurd h (by simp)
  · rintro ⟨rfl, rfl, rfl⟩
    rfl

def advance (l : List ℕ) (y : ℕ) : List ℕ :=
  match l with
  | [] => []
  | k :: tl => if k = y then tl else k :: tl

theorem advance_length_le (l : List ℕ) (y : ℕ) : (advance l y).length ≤ l.length := by
  cases l with
  | nil => simp [advance]
  | cons k tl =>
    by_cases hk : k = y <;> simp [advance, hk]

theorem advance_length_lt (l : List ℕ) (y : ℕ) (h : l.head? = some y) :
    (advance l y).length < l.length := by
  cases l with
  | nil => simp at h
  | cons k tl =>
    have : k = y := by simpa using h
    simp [advance, this]

theorem advance_sorted (l : List ℕ) (y : ℕ) (h : List.Sorted (· < ·) l) :
    List.Sorted (· < ·) (advance l y) := by
  cases l with
  | nil => simpa [advance] using h
  | cons k tl =>
    by_cases hk : k = y
    · simpa [advance, hk] using (List.sorted_cons.mp h).2
    · simpa [advance, hk] using h

theorem head_le_of_sorted_mem (a k : ℕ) (L : List ℕ)
    (hs : List.Sorted (· < ·) (a :: L)) (hk : k ∈ a :: L) : a ≤ k := by
  rcases List.mem_cons.mp hk with rfl | hmem
  · exact le_refl k
  · exact le_of_lt ((List.sorted_cons.mp hs).1 k hmem)

theorem mem_iff_head_eq (l : List ℕ) (y : ℕ) (hs : List.Sorted (· < ·) l)
    (hmin : ∀ k, l.head? = some k → y ≤ k) : y ∈ l ↔ l.head? = some y := by
  cases l with
  | nil => simp
  | cons k tl =>
    constructor
    · intro hmem
      have h1 : k ≤ y := head_le_of_sorted_mem k y tl hs hmem
      have h2 : y ≤ k := hmin k (by simp)
      simp [le_antisymm h1 h2]
    · intro hh
      have : k = y := by simpa using hh
      simp [this]

theorem advance_not_mem (l : List ℕ) (y : ℕ) (hs : List.Sorted (· < ·) l)
    (hmin : ∀ k, l.head? = some k → y ≤ k) : y ∉ advance l y := by
  cases l with
  | nil => simp [advance]
  | cons k tl =>
    by_cases hk : k = y
    · subst hk
      simp only [advance, if_pos rfl]
      intro hmem
      exact absurd ((List.sorted_cons.mp hs).1 k hmem) (lt_irrefl k)
    · simp only [advance, if_neg hk]
      intro hmem
      rcases List.mem_cons.mp hmem with h1 | h1
      · exact hk h1.symm
      · have hky : k < y := (List.sorted_cons.mp hs).1 y h1
        have : y ≤ k := hmin k (by simp)
        omega

theorem advance_mem_ne (l : List ℕ) (y k : ℕ) (hk : k ≠ y) :
    k ∈ advance l y ↔ k ∈ l := by
  cases l with
  | nil => simp [advance]
  | cons a tl =>
    by_cases ha : a = y
    · subst ha
      simp only [advance, if_pos rfl, List.mem_cons]
      constructor
      · exact fun h => Or.inr h
      · rintro (rfl | h)
        · exact absurd rfl hk
        · exact h
    · simp [advance, ha]

def selectGo : ℕ → List ℕ → List ℕ → List ℕ → List (Tier × ℕ)
  | 0, _, _, _ => []
  | fuel + 1, lp, lz, rz =>
    match choose lp lz rz with
    | none => []
    | some (y, t) => (t, y) :: selectGo fuel (advance lp y) (advance lz y) (advance rz y)

def select_files (lp lz rz : List ℕ) : List (Tier × ℕ) :=
  selectGo (lp.length + lz.length + rz.length) lp lz rz

theorem selectGo_spec (fuel : ℕ) : ∀ (lp lz rz : List ℕ),
    lp.length + lz.length + rz.length ≤ fuel →
    List.Sorted (· < ·) lp → List.Sorted (· < ·) lz → List.Sorted (· < ·) rz →
    ((selectGo fuel lp lz rz).map Prod.snd).Sorted (· < ·)
    ∧ (∀ k : ℕ, (∃ t, (t, k) ∈ selectGo fuel lp lz rz) ↔ (k ∈ lp ∨ k ∈ lz ∨ k ∈ rz))
    ∧ (∀ t k, (t, k) ∈ selectGo fuel lp lz rz →
        t = (if k ∈ lp then Tier.lp else if k ∈ lz then Tier.lz else Tier.rz)) := by
  induction fuel with
  | zero =>
    intro lp lz rz hle hsp hsz hsr
    have h1 : lp = [] := by
      cases lp
      · rfl
      · simp at hle
    have h2 : lz = [] := by
      cases lz
      · rfl
      · simp at hle
    have h3 : rz = [] := by
      cases rz
      · rfl
      · simp at hle
    subst h1; subst h2; subst h3
    refine ⟨by simp [selectGo], ?_, by simp [selectGo]⟩
    intro k
    simp [selectGo]
  | succ fuel ih =>
    intro lp lz rz hle hsp hsz hsr
    cases hch : choose lp lz rz with
    | none =>
      obtain ⟨h1, h2, h3⟩ := (choose_none_iff lp lz rz).mp hch
      subst h1; subst h2; subst h3
      refine ⟨by simp [selectGo, hch], ?_, by simp [selectGo, hch]⟩
      intro k
      simp [selectGo, hch]
    | some yt =>
      obtain ⟨y, t⟩ := yt
      obtain ⟨m1, m2, m3, hach, t1, t2, t3⟩ := choose_spec lp lz rz y t hch
      have hstep : selectGo (fuel + 1) lp lz rz
          = (t, y) :: selectGo fuel (advance lp y) (advance lz y) (advance rz y) := by
        rw [selectGo, hch]
      have hlt : (advance lp y).length + (advance lz y).length + (advance rz y).length ≤ fuel := by
        have a1 := advance_length_le lp y
        have a2 := advance_length_le lz y
        have a3 := advance_length_le rz y
        rcases hach with hh | hh | hh
        · have := advance_length_lt lp y hh
          omega
        · have := advance_length_lt lz y hh
          omega
        · have := advance_length_lt rz y hh
          omega
      obtain ⟨ih1, ih2, ih3⟩ := ih (advance lp y) (advance lz y) (advance rz y) hlt
        (advance_sorted lp y hsp) (advance_sorted lz y hsz) (advance_sorted rz y hsr)
      have hylt : ∀ k : ℕ, (k ∈ advance lp y ∨ k ∈ advance lz y ∨ k ∈ advance rz y) → y < k := by
        intro k hk
        have hyle : ∀ (l : List ℕ), List.Sorted (· < ·) l →
            (∀ m, l.head? = some m → y ≤ m) → ∀ m, m ∈ l → y ≤ m := by
          intro l hsl hminl m hm
          cases l with
          | nil => simp at hm
          | cons a tl => exact le_trans (hminl a (by simp)) (head_le_of_sorted_mem a m tl hsl hm)
        have hne : k ≠ y := by
          rintro rfl
          rcases hk with hk | hk | hk
          · exact advance_not_mem lp k hsp m1 hk
          · exact advance_not_mem lz k hsz m2 hk
          · exact advance_not_mem rz k hsr m3 hk
        have hmem : k ∈ lp ∨ k ∈ lz ∨ k ∈ rz := by
          rcases hk with hk | hk | hk
          · exact Or.inl ((advance_mem_ne lp y k hne).mp hk)
          · exact Or.inr (Or.inl ((advance_mem_ne lz y k hne).mp hk))
          · exact Or.inr (Or.inr ((advance_mem_ne rz y k hne).mp hk))
        have hyk : y ≤ k := by
          rcases hmem with hk2 | hk2 | hk2
          · exact hyle lp hsp m1 k hk2
          · exact hyle lz hsz m2 k hk2
          · exact hyle rz hsr m3 k hk2
        omega
      refine ⟨?_, ?_, ?_⟩
      · rw [hstep]
        simp only [List.map_cons, List.sorted_cons]
        refine ⟨?_, ih1⟩
        intro b hb
        simp only [List.mem_map] at hb
        obtain ⟨⟨u, k⟩, hmem, rfl⟩ := hb
        exact hylt k ((ih2 k).mp ⟨u, hmem⟩)
      · intro k
        rw [hstep]
        by_cases hky : k = y
        · subst hky
          constructor
          · intro _
            rcases hach with hh | hh | hh
            · exact Or.inl ((mem_iff_head_eq lp k hsp m1).mpr hh)
            · exact Or.inr (Or.inl ((mem_iff_head_eq lz k hsz m2).mpr hh))
            · exact Or.inr (Or.inr ((mem_iff_head_eq rz k hsr m3).mpr hh))
          · intro _
            exact ⟨t, by simp⟩
        · constructor
          · rintro ⟨u, hu⟩
            rcases List.mem_cons.mp hu with heq | hmem
            · exact absurd (by simpa using congrArg Prod.snd heq) hky
            · rcases (ih2 k).mp ⟨u, hmem⟩ with hh | hh | hh
              · exact Or.inl ((advance_mem_ne lp y k hky).mp hh)
              · exact Or.inr (Or.inl ((advance_mem_ne lz y k hky).mp hh))
              · exact Or.inr (Or.inr ((advance_mem_ne rz y k hky).mp hh))
          · intro hmem
            have hmem2 : k ∈ advance lp y ∨ k ∈ advance lz y ∨ k ∈ advance rz y := by
              rcases hmem with hh | hh | hh
              · exact Or.inl ((advance_mem_ne lp y k hky).mpr hh)
              · exact Or.inr (Or.inl ((advance_mem_ne lz y k hky).mpr hh))
              · exact Or.inr (Or.inr ((advance_mem_ne rz y k hky).mpr hh))
            obtain ⟨u, hu⟩ := (ih2 k).mpr hmem2
            exact ⟨u, by simp [hu]⟩
      · intro u k hmem
        rw [hstep] at hmem
        rcases List.mem_cons.mp hmem with heq | hmem2
        · have hk : k = y := by simpa using congrArg Prod.snd heq
          have ht : u = t := by simpa using congrArg Prod.fst heq
          subst hk
          subst ht
          by_cases h1 : k ∈ lp
          · rw [if_pos h1]
            exact t1 ((mem_iff_head_eq lp k hsp m1).mp h1)
          · rw [if_neg h1]
            have h1b : ¬ lp.head? = some k := fun hc =>
              h1 ((mem_iff_head_eq lp k hsp m1).mpr hc)
            by_cases h2 : k ∈ lz
            · rw [if_pos h2]
              exact t2 h1b ((mem_iff_head_eq lz k hsz m2).mp h2)
            · rw [if_neg h2]
              have h2b : ¬ lz.head? = some k := fun hc =>
                h2 ((mem_iff_head_eq lz k hsz m2).mpr hc)
              exact t3 h1b h2b
        · have hky : k ≠ y := by
            rintro rfl
            exact absurd (hylt k ((ih2 k).mp ⟨u, hmem2⟩)) (lt_irrefl k)
          rw [ih3 u k hmem2]
          by_cases h1 : k ∈ lp
          · rw [if_pos h1, if_pos ((advance_mem_ne lp y k hky).mpr h1)]
          · rw [if_neg h1, if_neg (fun hc => h1 ((advance_mem_ne lp y k hky).mp hc))]
            by_cases h2 : k ∈ lz
            · rw [if_pos h2, if_pos ((advance_mem_ne lz y k hky).mpr h2)]
            · rw [if_neg h2, if_neg (fun hc => h2 ((advance_mem_ne lz y k hky).mp hc))]

/-- C3: for any three strictly ascending per-tier key lists (cache lp, mirror lz,
remote rz), the merged list produced by select_files is strictly ordered by key with
no duplicates, contains exactly one entry per key of the union, the entry for a key
carried by several tiers belongs to the highest-priority tier (cache > mirror >
remote, ties keeping the first-checked tier), and every cursor holding the selected
key is advanced past it. -/
theorem merge_select (lp lz rz : List ℕ)
    (hsp : List.Sorted (· < ·) lp) (hsz : List.Sorted (· < ·) lz)
    (hsr : List.Sorted (· < ·) rz)
    (hne : ¬(lp = [] ∧ lz = [] ∧ rz = [])) :
    ((select_files lp lz rz).map Prod.snd).Sorted (· < ·)
    ∧ (∀ k : ℕ, (∃ t, (t, k) ∈ select_files lp lz rz) ↔ (k ∈ lp ∨ k ∈ lz ∨ k ∈ rz))
    ∧ (∀ t k, (t, k) ∈ select_files lp lz rz →
        t = (if k ∈ lp then Tier.lp else if k ∈ lz then Tier.lz else Tier.rz)) :=
  selectGo_spec (lp.length + lz.length + rz.length) lp lz rz (le_refl _) hsp hsz hsr

theorem merge_select_witness :
    List.Sorted (· < ·) ([2] : List ℕ) ∧ List.Sorted (· < ·) ([1, 2] : List ℕ)
    ∧ List.Sorted (· < ·) ([2, 3] : List ℕ)
    ∧ ¬(([2] : List ℕ) = [] ∧ ([1, 2] : List ℕ) = [] ∧ ([2, 3] : List ℕ) = [])
    ∧ (((select_files [2] [1, 2] [2, 3]).map Prod.snd).Sorted (· < ·)
      ∧ (∀ k : ℕ, (∃ t, (t, k) ∈ select_files [2] [1, 2] [2, 3])
          ↔ (k ∈ ([2] : List ℕ) ∨ k ∈ ([1, 2] : List ℕ) ∨ k ∈ ([2, 3] : List ℕ)))
      ∧ (∀ t k, (t, k) ∈ select_files [2] [1, 2] [2, 3] →
          t = (if k ∈ ([2] : List ℕ) then Tier.lp
               else if k ∈ ([1, 2] : List ℕ) then Tier.lz else Tier.rz)))
    ∧ select_files [2] [1, 2] [2, 3] = [(Tier.lz, 1), (Tier.lp, 2), (Tier.rz, 3)] :=
  ⟨by decide, by decide, by decide, by decide,
   merge_select [2] [1, 2] [2, 3] (by decide) (by decide) (by decide) (by decide),
   by rfl⟩

/- Model of DispatchSCADA.parse_csvfile (NEMWeb.py 721-796) and the surrounding
per-archive loop of load_nem_data_file (583-662), with validate = False as in
the pipeline.  The per-archive load object is reduced to the three fields the
parser touches: the lazily resolved header column triple
(timedate_col, duid_col, MW_col) - absent attribute modeled as none -, the
growing duid_list, and data_MW (one optional row per interval).  A python
exception (IndexError from row[i], ValueError from row.index, or a strptime
failure) aborts the run: Except.error. -/

structure SLoad where
  cols : Option (ℕ × ℕ × ℕ)
  duid_list : List String
  data_MW : List (Option (List ℚ))

abbrev ParseSt := Option (ℕ × ℕ × ℕ) × List String × List ℚ

/- load.timedate_col = row.index("SETTLEMENTDATE") etc. (NEMWeb.py 741-743);
python .index raises if absent. -/
def headerCols (row : List String) : Option (ℕ × ℕ × ℕ) :=
  match row.indexOf? ("SETTLEMENTDATE"), row.indexOf? ("DUID"),
      row.indexOf? ("SCADAVALUE") with
  | some a, some b, some c => some (a, b, c)
  | _, _, _ => none

/- datetime.strptime(s, "%Y/%m/%d %H:%M:%S") succeeds on the feed's
fixed-width form: 19 characters, digits except the fixed separators. -/
def strptimeOk (s : String) : Bool :=
  let cs := s.toList
  cs.length == 19 &&
    (List.range 19).all (fun i =>
      let c := cs.getD i ' '
      if i == 4 || i == 7 then c == '/'
      else if i == 10 then c == ' '
      else if i == 13 || i == 16 then c == ':'
      else c.isDigit)

def decDigits? (cs : List Char) : Option ℕ :=
  if cs ≠ [] && cs.all Char.isDigit then
    some (cs.foldl (fun a c => 10 * a + (c.toNat - 48)) 0)
  else none

def splitFrac : List Char → List Char × Option (List Char)
  | [] => ([], none)
  | c :: t =>
    if c = '.' then ([], some t)
    else
      let p := splitFrac t
      (c :: p.1, p.2)

/- python float() on the feed's plain decimal strings (sign, integer part,
optional fractional part; "1." and ".5" allowed, but not "." alone). -/
def parseRat? (s : String) : Option ℚ :=
  let p : ℚ × List Char :=
    match s.toList with
    | '-' :: t => (-1, t)
    | '+' :: t => (1, t)
    | cs => (1, cs)
  let q := splitFrac p.2
  match q.2 with
  | none => (decDigits? q.1).map (fun n => p.1 * n)
  | some f =>
    if q.1 = [] && f = [] then none
    else
      match (if q.1 = [] then some 0 else decDigits? q.1),
          (if f = [] then some 0 else decDigits? f) with
      | some a, some b => some (p.1 * ((a : ℚ) + (b : ℚ) / (10 : ℚ) ^ f.length))
      | _, _ => none

/- The first row of a payload whose record-type field is "I". -/
def firstHeaderRow : List (List String) → Option (List String)
  | [] => none
  | r :: rest =>
    match r.head? with
    | some tag => if tag = "I" then some r else firstHeaderRow rest
    | none => firstHeaderRow rest

/- One iteration of the row loop of parse_csvfile (727-794): "C" ignored; "I"
resolves the column triple by name only when not already resolved (the
hasattr guard, 740); "D" reads the value at MW_col, runs strptime on row[4]
unless the value is the string "0", skips "0" entries, resolves or appends the
duid at duid_col, and stores float(value) into the interval row - a float()
failure is caught and leaves the cell as is; anything else is printed and
ignored. -/
def scadaStep (st : ParseSt) (row : List String) : Except Unit ParseSt :=
  match row.head? with
  | none => .error ()
  | some tag =>
    if tag = "C" then .ok st
    else if tag = "I" then
      match st.1 with
      | some _ => .ok st
      | none =>
        match headerCols row with
        | some c => .ok (some c, st.2.1, st.2.2)
        | none => .error ()
    else if tag = "D" then
      match st.1 with
      | none => .error ()
      | some (tc, dc, mc) =>
        match row[mc]? with
        | none => .error ()
        | some power =>
          if power = "0" then .ok st
          else
            match row[4]? with
            | none => .error ()
            | some ts =>
              if strptimeOk ts then
                match row[dc]? with
                | none => .error ()
                | some duid =>
                  match (st.2.1).indexOf? duid with
                  | some di =>
                    .ok (some (tc, dc, mc), st.2.1,
                      match parseRat? power with
                      | some v => (st.2.2).set di v
                      | none => st.2.2)
                  | none =>
                    .ok (some (tc, dc, mc), st.2.1 ++ [duid],
                      match parseRat? power with
                      | some v => ((st.2.2) ++ [0]).set (st.2.1).length v
                      | none => (st.2.2) ++ [0])
              else .error ()
    else .ok st

def scadaRun : ParseSt → List (List String) → Except Unit ParseSt
  | st, [] => .ok st
  | st, row :: rest =>
    match scadaStep st row with
    | .error e => .error e
    | .ok st2 => scadaRun st2 rest

/- parse_csvfile on one payload: the interval row starts as zeros matching the
current duid_list (726), the row loop runs, and the finished row is stored at
load.interval (795, an IndexError if the interval is out of range). -/
def parse_csvfile (load : SLoad) (interval : ℕ) (rows : List (List String)) :
    Except Unit SLoad :=
  match scadaRun (load.cols, load.duid_list,
      List.replicate load.duid_list.length (0 : ℚ)) rows with
  | .error e => .error e
  | .ok st =>
    if interval < load.data_MW.length then
      .ok ⟨st.1, st.2.1, load.data_MW.set interval (some st.2.2)⟩
    else .error ()

/- The inner-zip loop of load_nem_data_file (645-651): each payload is parsed
in turn against the same load object. -/
def parse_archive : SLoad → List (ℕ × List (List String)) → Except Unit SLoad
  | load, [] => .ok load
  | load, (iv, rows) :: rest =>
    match parse_csvfile load iv rows with
    | .error e => .error e
    | .ok l2 => parse_archive l2 rest

/- initialise_data_MW (703-706) plus load_nem_data_file's fresh Blank() load:
no resolved columns, empty duid_list, INTERVALS_PER_FILE empty interval slots. -/
def initLoad (n : ℕ) : SLoad := ⟨none, [], List.replicate n none⟩

/- The spec's words, for comparison: column positions "re-resolved per file" -
every payload resolves the triple from its own header row, ignoring any
earlier resolution. -/
def parse_csvfile_respec (load : SLoad) (interval : ℕ)
    (rows : List (List String)) : Except Unit SLoad :=
  parse_csvfile ⟨none, load.duid_list, load.data_MW⟩ interval rows

def parse_archive_respec : SLoad → List (ℕ × List (List String)) → Except Unit SLoad
  | load, [] => .ok load
  | load, (iv, rows) :: rest =>
    match parse_csvfile_respec load iv rows with
    | .error e => .error e
    | .ok l2 => parse_archive_respec l2 rest

theorem firstHeaderRow_cons (row : List String) (rest : List (List String)) :
    firstHeaderRow (row :: rest)
      = match firstHeaderRow [row] with
        | some r => some r
        | none => firstHeaderRow rest := by
  cases hrow : row.head? with
  | none => simp only [firstHeaderRow, hrow]
  | some tag =>
    by_cases hI : tag = "I"
    · simp only [firstHeaderRow, hrow, if_pos hI]
    · simp only [firstHeaderRow, hrow, if_neg hI]

theorem scadaStep_cols (st : ParseSt) (row : List String) (st1 : ParseSt)
    (h : scadaStep st row = Except.ok st1) :
    (st1.1 = match st.1 with
             | some c => some c
             | none => (firstHeaderRow [row]).bind headerCols)
    ∧ (st.1 = none → ∀ r, firstHeaderRow [row] = some r → headerCols r ≠ none) := by
  cases hrow : row.head? with
  | none => simp [scadaStep, hrow] at h
  | some tag =>
    simp only [scadaStep, hrow] at h
    by_cases hC : tag = "C"
    · rw [if_pos hC] at h
      obtain rfl : st = st1 := by simpa using h
      subst hC
      constructor
      · cases hc : st.1 <;>
          simp [firstHeaderRow, hrow, hc]
      · intro _ r hr
        simp [firstHeaderRow, hrow] at hr
    · rw [if_neg hC] at h
      by_cases hI : tag = "I"
      · rw [if_pos hI] at h
        subst hI
        have hfr : firstHeaderRow [row] = some row := by
          simp [firstHeaderRow, hrow]
        cases hc : st.1 with
        | some c =>
          simp only [hc] at h
          obtain rfl : st = st1 := by simpa using h
          exact ⟨by simp [hc], by simp [hc]⟩
        | none =>
          simp only [hc] at h
          cases hhc : headerCols row with
          | none => simp [hhc] at h
          | some c =>
            simp only [hhc] at h
            obtain rfl : (some c, st.2.1, st.2.2) = st1 := by simpa using h
            refine ⟨by simp [hfr, hhc], ?_⟩
            intro _ r hr
            rw [hfr] at hr
            obtain rfl : row = r := by simpa using hr
            simp [hhc]
      · rw [if_neg hI] at h
        have hfr : firstHeaderRow [row] = none := by
          simp [firstHeaderRow, hrow, hI]
        by_cases hD : tag = "D"
        · rw [if_pos hD] at h
          cases hc : st.1 with
          | none => simp [hc] at h
          | some c =>
            obtain ⟨tc, dc, mc⟩ := c
            simp only [hc] at h
            refine ⟨?_, by simp [hc]⟩
            cases hmw : row[mc]? with
            | none => simp [hmw] at h
            | some power =>
              simp only [hmw] at h
              by_cases h0 : power = "0"
              · rw [if_pos h0] at h
                obtain rfl : st = st1 := by simpa using h
                simp [hc]
              · rw [if_neg h0] at h
                cases hts : row[4]? with
                | none => simp [hts] at h
                | some ts =>
                  simp only [hts] at h
                  by_cases hok : strptimeOk ts
                  · rw [if_pos hok] at h
                    cases hdu : row[dc]? with
                    | none => simp [hdu] at h
                    | some duid =>
                      simp only [hdu] at h
                      cases hdi : (st.2.1).indexOf? duid with
                      | some di =>
                        simp only [hdi] at h
                        obtain rfl : (some (tc, dc, mc), st.2.1,
                            match parseRat? power with
                            | some v => (st.2.2).set di v
                            | none => st.2.2) = st1 := by simpa using h
                        simp [hc]
                      | none =>
                        simp only [hdi] at h
                        obtain rfl : (some (tc, dc, mc), st.2.1 ++ [duid],
                            match parseRat? power with
                            | some v => ((st.2.2) ++ [0]).set (st.2.1).length v
                            | none => (st.2.2) ++ [0]) = st1 := by simpa using h
                        simp [hc]
                  · rw [if_neg hok] at h
                    exact absurd h (by simp)
        · rw [if_neg hD] at h
          obtain rfl : st = st1 := by simpa using h
          refine ⟨?_, by simp [hfr]⟩
          cases hc : st.1 <;> simp [hfr, hc]

theorem scadaRun_cols : ∀ (rows : List (List String)) (st st2 : ParseSt),
    scadaRun st rows = Except.ok st2 →
    (∀ c, st.1 = some c → st2.1 = some c)
    ∧ (st.1 = none → st2.1 = (firstHeaderRow rows).bind headerCols) := by
  intro rows
  induction rows with
  | nil =>
    intro st st2 h
    obtain rfl : st = st2 := by simpa [scadaRun] using h
    exact ⟨fun c hc => hc, fun hc => by simp [firstHeaderRow, hc]⟩
  | cons row rest ih =>
    intro st st2 h
    simp only [scadaRun] at h
    cases hstep : scadaStep st row with
    | error e => simp [hstep] at h
    | ok st1 =>
      simp only [hstep] at h
      obtain ⟨e1, e2⟩ := scadaStep_cols st row st1 hstep
      obtain ⟨r1, r2⟩ := ih st1 st2 h
      constructor
      · intro c hc
        apply r1
        simp only [hc] at e1
        exact e1
      · intro hc
        simp only [hc] at e1
        rw [firstHeaderRow_cons]
        cases hfr : firstHeaderRow [row] with
        | some r =>
          have hne := e2 hc r hfr
          cases hhc : headerCols r with
          | none => exact absurd hhc hne
          | some c =>
            have e3 : st1.1 = some c := by rw [e1, hfr]; exact hhc
            show st2.1 = headerCols r
            rw [hhc]
            exact r1 c e3
        | none =>
          have e3 : st1.1 = none := by rw [e1, hfr]; rfl
          show st2.1 = (firstHeaderRow rest).bind headerCols
          exact r2 e3

/-- C7 (amended): for every inner payload, the column positions of the
timestamp, channel-id and value fields are those of load.cols after parsing;
they are located by name (headerCols) - but resolved at most once per outer
archive: a payload parsed with the triple already resolved keeps it unchanged
(the hasattr guard), and only a payload reached with the triple unresolved
resolves it, from that payload's first "I" row. -/
theorem header_resolution (load : SLoad) (iv : ℕ) (rows : List (List String))
    (l2 : SLoad) (h : parse_csvfile load iv rows = Except.ok l2) :
    l2.cols = match load.cols with
              | some c => some c
              | none => (firstHeaderRow rows).bind headerCols := by
  simp only [parse_csvfile] at h
  cases hrun : scadaRun (load.cols, load.duid_list,
      List.replicate load.duid_list.length (0 : ℚ)) rows with
  | error e => simp [hrun] at h
  | ok st =>
    simp only [hrun] at h
    by_cases hlt : iv < load.data_MW.length
    · rw [if_pos hlt] at h
      obtain rfl : (⟨st.1, st.2.1, load.data_MW.set iv (some st.2.2)⟩ : SLoad) = l2 := by
        simpa using h
      obtain ⟨r1, r2⟩ := scadaRun_cols rows _ st hrun
      show st.1 = _
      cases hc : load.cols with
      | some c => exact r1 c hc
      | none => exact r2 hc
    · rw [if_neg hlt] at h
      exact absurd h (by simp)

def hdrPayload : List (List String) :=
  [["C", "NEMP.WORLD", "DISPATCHSCADA", "AEMO"],
   ["I", "DISPATCH", "UNIT_SCADA", "1", "SETTLEMENTDATE", "DUID", "SCADAVALUE"],
   ["D", "DISPATCH", "UNIT_SCADA", "1", "2022/07/25 00:05:00", "UNIT1", "0"]]

theorem header_resolution_witness :
    parse_csvfile (initLoad 2) 0 hdrPayload
      = Except.ok ⟨some (4, 5, 6), [], [some [], none]⟩
    ∧ (⟨some (4, 5, 6), [], [some [], none]⟩ : SLoad).cols
      = match (initLoad 2).cols with
        | some c => some c
        | none => (firstHeaderRow hdrPayload).bind headerCols :=
  ⟨rfl, header_resolution (initLoad 2) 0 hdrPayload _ rfl⟩

def payload1 : List (List String) :=
  [["I", "DISPATCH", "UNIT_SCADA", "1", "SETTLEMENTDATE", "DUID", "SCADAVALUE"],
   ["D", "DISPATCH", "UNIT_SCADA", "1", "2022/07/25 00:05:00", "UNIT1", "1.5"]]

def payload2 : List (List String) :=
  [["I", "DISPATCH", "UNIT_SCADA", "1", "SETTLEMENTDATE", "SCADAVALUE", "DUID"],
   ["D", "DISPATCH", "UNIT_SCADA", "1", "2022/07/25 00:10:00", "7.5", "UNIT2"]]

theorem header_reresolution_cx :
    (parse_archive (initLoad 3) [(0, payload1), (1, payload2)]).map SLoad.duid_list
      = Except.ok ["UNIT1", "7.5"]
    ∧ (parse_archive_respec (initLoad 3) [(0, payload1), (1, payload2)]).map SLoad.duid_list
      = Except.ok ["UNIT1", "UNIT2"]
    ∧ (["UNIT1", "7.5"] : List String) ≠ ["UNIT1", "UNIT2"] :=
  ⟨rfl, rfl, by decide⟩

theorem getD_replicate0 (L q : ℕ) : (List.replicate L (0 : ℚ)).getD q 0 = 0 := by
  by_cases h : q < L
  · rw [List.getD_eq_getElem _ _ (by simpa using h)]
    simp
  · rw [List.getD_eq_default _ _ (by simpa using h)]

/- finalise_data_MW (NEMWeb.py 708-719): new_data_MW = zeros(rows, width);
for each stored interval row (if not None) the enumerated values are written
into the zero row. setAll is the inner `for col, power in enumerate(row_data)`
loop. -/
def setAll (acc : List ℚ) (c : ℕ) : List ℚ → List ℚ
  | [] => acc
  | v :: rest => setAll (acc.set c v) (c + 1) rest

def finalise_data_MW (w : ℕ) (data : List (Option (List ℚ))) : List (List ℚ) :=
  data.map (fun row =>
    match row with
    | none => List.replicate w 0
    | some r => setAll (List.replicate w 0) 0 r)

/- build_df_five_minute (NEMWeb.py 1028-1033): one period matrix column is
copied into the master grid column starting at first_row, writing only the
non-zero entries. -/
def copyCol : List ℚ → ℕ → List ℚ → List ℚ
  | m, _, [] => m
  | m, p, v :: vs => copyCol (if v = 0 then m else m.set p v) (p + 1) vs

/- INTERVALS_PER_FILE: 24 * int(60/5) = 288 daily (696), 7 * 24 * int(60/30)
= 336 weekly (806). -/
def INTERVALS_PER_FILE_daily : ℕ := 24 * (60 / 5)
def INTERVALS_PER_FILE_weekly : ℕ := 7 * 24 * (60 / 30)

theorem setAll_length : ∀ (r acc : List ℚ) (c : ℕ),
    (setAll acc c r).length = acc.length := by
  intro r
  induction r with
  | nil => intro acc c; rfl
  | cons v rest ih =>
    intro acc c
    rw [setAll, ih]
    simp

theorem setAll_getD_out : ∀ (r acc : List ℚ) (p q : ℕ),
    (q < p ∨ p + r.length ≤ q) → (setAll acc p r).getD q 0 = acc.getD q 0 := by
  intro r
  induction r with
  | nil => intro acc p q _; rfl
  | cons v rest ih =>
    intro acc p q hq
    simp only [List.length_cons] at hq
    rw [setAll, ih _ _ _ (by omega), getD_set_ne _ _ _ _ _ (by omega)]

theorem setAll_getD_in : ∀ (r acc : List ℚ) (p i : ℕ),
    p + i < acc.length → i < r.length →
    (setAll acc p r).getD (p + i) 0 = r.getD i 0 := by
  intro r
  induction r with
  | nil => intro acc p i _ hi; simp at hi
  | cons v rest ih =>
    intro acc p i hlen hi
    rw [setAll]
    cases i with
    | zero =>
      rw [setAll_getD_out rest _ _ _ (Or.inl (by omega))]
      rw [Nat.add_zero, getD_set_self _ _ _ _ (by omega)]
      rfl
    | succ j =>
      have e1 : p + (j + 1) = (p + 1) + j := by omega
      rw [e1, ih _ _ _ (by simp at hlen ⊢; omega) (by simp at hi ⊢; omega)]
      simp

theorem copyCol_length : ∀ (vs m : List ℚ) (p : ℕ),
    (copyCol m p vs).length = m.length := by
  intro vs
  induction vs with
  | nil => intro m p; rfl
  | cons v rest ih =>
    intro m p
    rw [copyCol, ih]
    by_cases hv : v = 0
    · rw [if_pos hv]
    · rw [if_neg hv]; simp

theorem copyCol_getD_out : ∀ (vs m : List ℚ) (p q : ℕ),
    (q < p ∨ p + vs.length ≤ q) → (copyCol m p vs).getD q 0 = m.getD q 0 := by
  intro vs
  induction vs with
  | nil => intro m p q _; rfl
  | cons v rest ih =>
    intro m p q hq
    simp only [List.length_cons] at hq
    rw [copyCol, ih _ _ _ (by omega)]
    by_cases hv : v = 0
    · rw [if_pos hv]
    · rw [if_neg hv, getD_set_ne _ _ _ _ _ (by omega)]

theorem copyCol_getD_in : ∀ (vs m : List ℚ) (p i : ℕ),
    p + vs.length ≤ m.length → i < vs.length →
    (copyCol m p vs).getD (p + i) 0
      = if vs.getD i 0 = 0 then m.getD (p + i) 0 else vs.getD i 0 := by
  intro vs
  induction vs with
  | nil => intro m p i _ hi; simp at hi
  | cons v rest ih =>
    intro m p i hlen hi
    rw [copyCol]
    cases i with
    | zero =>
      rw [copyCol_getD_out rest _ _ _ (Or.inl (by omega))]
      by_cases hv : v = 0
      · rw [if_pos hv]
        have e1 : (v :: rest).getD 0 0 = (0 : ℚ) := by simp [hv]
        rw [e1, if_pos rfl]
      · rw [if_neg hv, Nat.add_zero,
          getD_set_self _ _ _ _ (by simp at hlen ⊢; omega)]
        have e1 : (v :: rest).getD 0 0 = v := by simp
        rw [e1, if_neg hv]
    | succ j =>
      have e1 : p + (j + 1) = (p + 1) + j := by omega
      have e2 : (if v = 0 then m else m.set p v).length = m.length := by
        by_cases hv : v = 0
        · rw [if_pos hv]
        · rw [if_neg hv]; simp
      rw [e1, ih _ _ _ (by rw [e2]; simp at hlen ⊢; omega) (by simp at hi ⊢; omega)]
      have e3 : (if v = 0 then m else m.set p v).getD ((p + 1) + j) 0
          = m.getD ((p + 1) + j) 0 := by
        by_cases hv : v = 0
        · rw [if_pos hv]
        · rw [if_neg hv, getD_set_ne _ _ _ _ _ (by omega)]
      rw [e3]
      simp

theorem parse_archive_data_len : ∀ (ps : List (ℕ × List (List String)))
    (load l2 : SLoad), parse_archive load ps = Except.ok l2 →
    l2.data_MW.length = load.data_MW.length := by
  intro ps
  induction ps with
  | nil =>
    intro load l2 h
    obtain rfl : load = l2 := by simpa [parse_archive] using h
    rfl
  | cons p rest ih =>
    obtain ⟨iv, rows⟩ := p
    intro load l2 h
    simp only [parse_archive] at h
    cases hp : parse_csvfile load iv rows with
    | error e => simp [hp] at h
    | ok l1 =>
      simp only [hp] at h
      have e1 : l1.data_MW.length = load.data_MW.length := by
        simp only [parse_csvfile] at hp
        cases hrun : scadaRun (load.cols, load.duid_list,
            List.replicate load.duid_list.length (0 : ℚ)) rows with
        | error e => simp [hrun] at hp
        | ok st =>
          simp only [hrun] at hp
          by_cases hlt : iv < load.data_MW.length
          · rw [if_pos hlt] at hp
            obtain rfl : (⟨st.1, st.2.1,
                load.data_MW.set iv (some st.2.2)⟩ : SLoad) = l1 := by simpa using hp
            simp
          · rw [if_neg hlt] at hp
            simp at hp
      rw [ih l1 l2 h, e1]

/-- C9: the dense-fill invariant. A finished period matrix has one row per
stored interval slot, every row has exactly the channel-count width
(INTERVALS_PER_FILE rows by construction: 288 daily, 336 weekly), and for
every in-range cell the value is exactly what the stored interval row holds
for that channel (r.getD c 0) - so a cell not reached by any data row
(missing interval rows stored as none, channels appended after the interval
was parsed, entries skipped as "0" or left unset by a failed float()) reads
zero. Likewise a master-grid column built by copyCol from an all-zero column
holds the period value inside the copied span and zero outside it, because
only non-zero values are written and the column starts at zero. Finally, an
archive parsed from the initial load keeps exactly its n = INTERVALS_PER_FILE
interval slots (288 daily, 336 weekly), so the finished matrix has exactly n
rows. -/
theorem dense_fill (w : ℕ) (data : List (Option (List ℚ))) (vs : List ℚ)
    (L first : ℕ) :
    (finalise_data_MW w data).length = data.length
    ∧ (∀ row ∈ finalise_data_MW w data, row.length = w)
    ∧ (∀ i c : ℕ, i < data.length → c < w →
        ((finalise_data_MW w data).getD i []).getD c 0
          = match data.getD i none with
            | none => 0
            | some r => r.getD c 0)
    ∧ (first + vs.length ≤ L →
        ∀ q : ℕ, q < L →
          (copyCol (List.replicate L 0) first vs).getD q 0
            = if first ≤ q ∧ q < first + vs.length then vs.getD (q - first) 0
              else 0)
    ∧ (∀ (n : ℕ) (ps : List (ℕ × List (List String))) (l2 : SLoad),
        parse_archive (initLoad n) ps = Except.ok l2 →
        (finalise_data_MW w l2.data_MW).length = n) := by
  refine ⟨by simp [finalise_data_MW], ?_, ?_, ?_, ?_⟩
  · intro row hrow
    simp only [finalise_data_MW, List.mem_map] at hrow
    obtain ⟨orow, _, rfl⟩ := hrow
    cases orow with
    | none => simp
    | some r => rw [setAll_length]; simp
  · intro i c hi hc
    have hgd : (finalise_data_MW w data).getD i []
        = match data.getD i none with
          | none => List.replicate w 0
          | some r => setAll (List.replicate w 0) 0 r := by
      have h1 : i < (finalise_data_MW w data).length := by
        simpa [finalise_data_MW] using hi
      rw [List.getD_eq_getElem _ _ h1, List.getD_eq_getElem _ _ hi]
      simp [finalise_data_MW]
    rw [hgd]
    cases hrow : data.getD i none with
    | none => exact getD_replicate0 w c
    | some r =>
      show (setAll (List.replicate w 0) 0 r).getD c 0 = r.getD c 0
      by_cases h2 : c < r.length
      · have h3 := setAll_getD_in r (List.replicate w 0) 0 c (by simpa using hc) h2
        simpa using h3
      · rw [setAll_getD_out r _ 0 c (Or.inr (by omega)), getD_replicate0,
          List.getD_eq_default _ _ (by omega)]
  · intro hle q hq
    by_cases h1 : first ≤ q ∧ q < first + vs.length
    · rw [if_pos h1]
      have e1 : q = first + (q - first) := by omega
      have h2 := copyCol_getD_in vs (List.replicate L 0) first (q - first)
        (by simpa using hle) (by omega)
      rw [← e1] at h2
      rw [h2, getD_replicate0]
      by_cases hz : vs.getD (q - first) 0 = 0
      · rw [if_pos hz, hz]
      · rw [if_neg hz]
    · rw [if_neg h1, copyCol_getD_out vs _ first q (by omega), getD_replicate0]
  · intro n ps l2 h
    have e1 := parse_archive_data_len ps (initLoad n) l2 h
    simp [finalise_data_MW, e1, initLoad]

theorem dense_fill_witness :
    (finalise_data_MW 2 [none, some [5]]).length = 2
    ∧ ((finalise_data_MW 2 [none, some [5]]).getD 1 []).getD 0 0 = 5
    ∧ ((finalise_data_MW 2 [none, some [5]]).getD 1 []).getD 1 0 = 0
    ∧ ((finalise_data_MW 2 [none, some [5]]).getD 0 []).getD 1 0 = 0
    ∧ (copyCol (List.replicate 4 0) 1 [0, 3]).getD 2 0 = 3
    ∧ (copyCol (List.replicate 4 0) 1 [0, 3]).getD 1 0 = 0
    ∧ (copyCol (List.replicate 4 0) 1 [0, 3]).getD 3 0 = 0
    ∧ (finalise_data_MW 2 (initLoad 288).data_MW).length = 288 := by
  refine ⟨(dense_fill 2 [none, some [5]] [0, 3] 4 1).1, ?_, ?_, ?_, ?_, ?_, ?_, ?_⟩
  · have h := (dense_fill 2 [none, some [5]] [0, 3] 4 1).2.2.1 1 0 (by norm_num)
      (by norm_num)
    simpa using h
  · have h := (dense_fill 2 [none, some [5]] [0, 3] 4 1).2.2.1 1 1 (by norm_num)
      (by norm_num)
    simpa using h
  · have h := (dense_fill 2 [none, some [5]] [0, 3] 4 1).2.2.1 0 1 (by norm_num)
      (by norm_num)
    simpa using h
  · have h := (dense_fill 2 [none, some [5]] [0, 3] 4 1).2.2.2.1 (by norm_num) 2
      (by norm_num)
    rw [h]
    norm_num
  · have h := (dense_fill 2 [none, some [5]] [0, 3] 4 1).2.2.2.1 (by norm_num) 1
      (by norm_num)
    rw [h]
    norm_num
  · have h := (dense_fill 2 [none, some [5]] [0, 3] 4 1).2.2.2.1 (by norm_num) 3
      (by norm_num)
    rw [h]
    norm_num
  · exact (dense_fill 2 [none, some [5]] [0, 3] 4 1).2.2.2.2 288 [] (initLoad 288) rfl
